import Mathlib

/-!
# pg_backup: the obscuring loop, the CSV archive codec and the pattern generator

A shallow embedding of `utils/dbutil.go` and `main.go`.

Conventions of the embedding:

* a Go `string` is a list of characters (`Str`);
* a Go `map` is an association list; the order in which a `range` statement
  visits it, which Go leaves open and changes from one statement to the next,
  is a parameter of the loop model (`rangeIndexes`, `rangeColumns`);
* a value held in a row (`interface{}`) is represented by its JSON image,
  the only thing the exporter ever observes of it (`json.Marshal`); a number
  of a row is the literal written for it, standing for the rational the
  literal writes, and the decoder stores the float64 nearest to it;
* a Go runtime panic is an `Except` error, and so is a library call that does
  not return;
* the random source, the fake-word library (whose calls may not return) and
  the successive results of `generateNewValue` inside the export loop are
  explicit parameters.
-/

namespace PgBackup

/-! ## Data model -/

/-- A Go string. -/
abbrev Str := List Char

/-- The JSON image of a scalar held in a row: `nil` or a nil pointer,
a boolean, a number (kept as the literal `json.Marshal` writes for it),
or a string. -/
inductive Value where
  | null : Value
  | bool (b : Bool) : Value
  | num (lit : Str) : Value
  | str (s : Str) : Value
  deriving DecidableEq, Repr

/-- One queried row, `[]interface{}`. -/
abbrev Row := List Value

/-- The columns of one unique index, `map[string]int`: column name to position. -/
abbrev IndexMap := List (Str × Int)

/-- Ways in which the Go code aborts, a library call that does not return, and
fuel exhaustion of the model. -/
inductive Err where
  | indexOutOfRange : Err
  | invalidIntn : Err
  | negativeLen : Err
  | sliceOutOfRange : Err
  | noReturn : Err
  | outOfFuel : Err
  deriving DecidableEq, Repr

/-! ## `encoding/json`: marshalling of scalars -/

/-- The table `hex` of `encoding/json`. -/
def hexDigit (n : Nat) : Char :=
  ("0123456789abcdef".toList).getD n '0'

/-- How `json.Marshal` writes one character of a string (HTML escaping on).
Backspace and form feed are written `\b` and `\f`, as Go 1.22 and later do;
earlier releases write `\u0008` and `\u000c`, which the decoder reads the same. -/
def escapeChar (c : Char) : Str :=
  if c = '\\' ∨ c = '\"' then ['\\', c]
  else if c = '\n' then ['\\', 'n']
  else if c = '\r' then ['\\', 'r']
  else if c = '\t' then ['\\', 't']
  else if c.toNat = 8 then ['\\', 'b']
  else if c.toNat = 12 then ['\\', 'f']
  else if c.toNat < 0x20 ∨ c = '<' ∨ c = '>' ∨ c = '&' then
    ['\\', 'u', '0', '0', hexDigit (c.toNat / 16), hexDigit (c.toNat % 16)]
  else if c.toNat = 0x2028 ∨ c.toNat = 0x2029 then
    ['\\', 'u', '2', '0', '2', hexDigit (c.toNat % 16)]
  else [c]

/-- The body of a marshalled string, without the quotes. -/
def escapeString : Str → Str
  | [] => []
  | c :: cs => escapeChar c ++ escapeString cs

/-- The text `json.Marshal` writes for a string. -/
def encodeString (s : Str) : Str :=
  '\"' :: (escapeString s ++ ['\"'])

/-- The text `json.Marshal` writes for one value. -/
def marshal : Value → Str
  | .null => "null".toList
  | .bool true => "true".toList
  | .bool false => "false".toList
  | .num lit => lit
  | .str s => encodeString s

/-- Go `strings.Join`. -/
def join (sep : Str) : List Str → Str
  | [] => []
  | [a] => a
  | a :: b :: rest => a ++ sep ++ join sep (b :: rest)

/-- The text `json.Marshal` writes for a row (a non-nil slice). -/
def marshalRow (row : Row) : Str :=
  '[' :: (join [','] (row.map marshal) ++ [']'])

/-! ## `DbExport`: the obscuring loop (dbutil.go 166-216) -/

/-- The local constant `maxRetry`. -/
def maxRetry : Nat := 10

/-- What the loop reads of its surroundings for one table. -/
structure ObscureCtx where
  /-- The flag `doObscure`. -/
  doObscure : Bool
  /-- The entry `config.Obscure[tableName]`, `none` when the map is nil. -/
  obscure : Option (List (Str × Str))
  /-- The field names `table.Columns`. -/
  columns : List Str
  /-- The discovered unique indexes `uniqIndexes`, by index name. -/
  uniqIndexes : List (Str × IndexMap)
  /-- The result of the k-th call of `generateNewValue`, given its pattern. -/
  gen : Nat → Str → Option Str
  /-- The order in which the k-th `range` statement over an index map visits
  the entries of `uniqIndexes` (Go leaves the order unspecified and changes it
  from one `range` statement to the next). -/
  rangeIndexes : Nat → List (Str × IndexMap) → List (Str × IndexMap)
  /-- The order in which the k-th `range` statement over an index map visits
  the columns of one index. -/
  rangeColumns : Nat → IndexMap → IndexMap

/-- Every `range` statement visits each entry of its map once: the orders of
the context are permutations of the entries. -/
def ObscureCtx.Permutes (ctx : ObscureCtx) : Prop :=
  (∀ k l, (ctx.rangeIndexes k l).Perm l) ∧ (∀ k m, (ctx.rangeColumns k m).Perm m)

/-- Lookup `config.Obscure[tableName][name]`: the empty string when absent. -/
def lookupPattern (m : List (Str × Str)) (name : Str) : Str :=
  match m.find? (fun kv => kv.1 == name) with
  | some kv => kv.2
  | none => []

/-- A `*string` stored in a row, seen through `json.Marshal`. -/
def ptrValue : Option Str → Value
  | none => .null
  | some s => .str s

/-- The inner loop `for index, name := range table.Columns`: every column with a
non-empty pattern gets the next generated value. `ctr` counts the calls of
`generateNewValue`. -/
def obscureRow (gen : Nat → Str → Option Str) (m : List (Str × Str)) :
    List Str → Row → Nat → Except Err (Row × Nat)
  | [], row, ctr => .ok (row, ctr)
  | name :: cols, [], ctr =>
    if lookupPattern m name ≠ [] then .error .indexOutOfRange
    else obscureRow gen m cols [] ctr
  | name :: cols, v :: row, ctr =>
    if lookupPattern m name ≠ [] then
      match obscureRow gen m cols row (ctr + 1) with
      | .error e => .error e
      | .ok (row1, ctr1) => .ok (ptrValue (gen ctr (lookupPattern m name)) :: row1, ctr1)
    else
      match obscureRow gen m cols row ctr with
      | .error e => .error e
      | .ok (row1, ctr1) => .ok (v :: row1, ctr1)

/-- The guarded obscuring step `if doObscure && config.Obscure[tableName] != nil`. -/
def obscureStep (ctx : ObscureCtx) (row : Row) (ctr : Nat) : Except Err (Row × Nat) :=
  match ctx.doObscure, ctx.obscure with
  | true, some m => obscureRow ctx.gen m ctx.columns row ctr
  | _, _ => .ok (row, ctr)

/-- The access `row[index]`. -/
def rowAt (row : Row) (index : Int) : Except Err Value :=
  if 0 ≤ index then
    match row[index.toNat]? with
    | some v => .ok v
    | none => .error .indexOutOfRange
  else .error .indexOutOfRange

/-- The test `row[index] == nil || bytes.Equal(b, null)` on a value and its
marshalled text `b`. -/
def isNil (v : Value) : Bool :=
  decide (v = Value.null) || decide (marshal v = "null".toList)

/-- The loop `for colName, index := range indexes` building `val`, over the
columns in the order the `range` statement visits them: a null component
empties the key and leaves the loop. -/
def compositeKey (row : Row) : IndexMap → Str → Except Err Str
  | [], val => .ok val
  | (colName, index) :: rest, val =>
    match rowAt row index with
    | .error e => .error e
    | .ok v =>
      if isNil v then .ok []
      else compositeKey row rest (val ++ colName ++ ['='] ++ marshal v ++ ['_'])

/-- The row has no null at a column of the index: every position of the index
lies in the row and holds a value the code does not take for null. -/
def noNullAt (row : Row) (indexes : IndexMap) : Bool :=
  indexes.all fun cp =>
    match rowAt row cp.2 with
    | .ok v => !isNil v
    | .error _ => false

/-- Outcome of the loop over the unique indexes: a jump back to the label
`GenerateObscureValue`, or the completed `valueRowMap`. -/
inductive Check where
  | again : Check
  | pass (valueRowMap : List Str) : Check
  deriving DecidableEq, Repr

/-- The loop `for _, indexes := range uniqIndexes`, over the indexes in the
order the `range` statement visits them. `tick` counts the `range` statements
over index maps run so far; the inner `range indexes` of each index is one of them. -/
def checkIndexes (ctx : ObscureCtx) (valueTableMap : List Str) (retry : Nat) (row : Row) :
    List (Str × IndexMap) → List Str → Nat → Except Err (Check × Nat)
  | [], valueRowMap, tick => .ok (.pass valueRowMap, tick)
  | (_, indexes) :: rest, valueRowMap, tick =>
    match compositeKey row (ctx.rangeColumns tick indexes) [] with
    | .error e => .error e
    | .ok val =>
      if val ≠ [] then
        if val ∈ valueTableMap ∧ retry < maxRetry then .ok (.again, tick + 1)
        else checkIndexes ctx valueTableMap retry row rest (valueRowMap ++ [val]) (tick + 1)
      else checkIndexes ctx valueTableMap retry row rest valueRowMap (tick + 1)

/-- The state in which the code leaves the label loop for one row. -/
structure Attempt where
  /-- The row with its last generated values. -/
  row : Row
  /-- The counter `retry`: how many times values were generated. -/
  retry : Nat
  /-- The number of `generateNewValue` calls made so far. -/
  ctr : Nat
  /-- The number of `range` statements over index maps run so far. -/
  tick : Nat
  /-- The keys `valueRowMap` of the last attempt. -/
  valueRowMap : List Str
  deriving DecidableEq, Repr

/-- The code from the label `GenerateObscureValue` to the end of the index
loop, with its `goto`; `fuel` bounds the number of passes of the model. -/
def generateObscureValue (ctx : ObscureCtx) (valueTableMap : List Str) :
    Nat → Nat → Row → Nat → Nat → Except Err Attempt
  | 0, _, _, _, _ => .error .outOfFuel
  | fuel + 1, retry, row, ctr, tick =>
    match obscureStep ctx row ctr with
    | .error e => .error e
    | .ok (row1, ctr1) =>
      match checkIndexes ctx valueTableMap (retry + 1) row1
          (ctx.rangeIndexes tick ctx.uniqIndexes) [] (tick + 1) with
      | .error e => .error e
      | .ok (.again, tick1) =>
        generateObscureValue ctx valueTableMap fuel (retry + 1) row1 ctr1 tick1
      | .ok (.pass valueRowMap, tick1) => .ok ⟨row1, retry + 1, ctr1, tick1, valueRowMap⟩

/-- The variables the row loop of one table carries. -/
structure LoopState where
  /-- The cumulative key set `valueTableMap`. -/
  valueTableMap : List Str
  /-- The output `table.Rows`. -/
  rows : List Row
  /-- The number of `generateNewValue` calls made so far. -/
  ctr : Nat
  /-- The number of `range` statements over index maps run so far. -/
  tick : Nat
  deriving DecidableEq, Repr

/-- One pass of `for rows.Next()`: the label loop, the commit of
`valueRowMap` into `valueTableMap` (both are sets, read by membership only, so
the order of the commit loop does not show), and the append guarded by
`retry < maxRetry`. -/
def exportRow (ctx : ObscureCtx) (fuel : Nat) (st : LoopState) (row : Row) :
    Except Err LoopState :=
  match generateObscureValue ctx st.valueTableMap fuel 0 row st.ctr st.tick with
  | .error e => .error e
  | .ok a =>
    if a.retry < maxRetry then
      .ok ⟨st.valueTableMap ++ a.valueRowMap, st.rows ++ [a.row], a.ctr, a.tick⟩
    else
      .ok ⟨st.valueTableMap ++ a.valueRowMap, st.rows, a.ctr, a.tick⟩

/-- The loop `for rows.Next()` over the queried rows of one table. -/
def exportRows (ctx : ObscureCtx) (fuel : Nat) : LoopState → List Row → Except Err LoopState
  | st, [] => .ok st
  | st, row :: rest =>
    match exportRow ctx fuel st row with
    | .error e => .error e
    | .ok st1 => exportRows ctx fuel st1 rest

/-- The rows of one table as `DbExport` collects them: empty `valueTableMap`,
empty `table.Rows`, and a pass budget of `maxRetry` for every row. -/
def exportTable (ctx : ObscureCtx) (ctr : Nat) (rows : List Row) : Except Err LoopState :=
  exportRows ctx maxRetry ⟨[], [], ctr, 0⟩ rows

/-- How many columns of the table carry a pattern, that is how many calls of
`generateNewValue` one pass of the obscuring step makes. -/
def obscuredColumns (ctx : ObscureCtx) : Nat :=
  match ctx.doObscure, ctx.obscure with
  | true, some m => (ctx.columns.filter fun name => decide (lookupPattern m name ≠ [])).length
  | _, _ => 0

/-- The `range` statements visit the columns of the index in one and the same
order, the one the columns are listed in. -/
def StableOrder (ctx : ObscureCtx) (idx : Str × IndexMap) : Prop :=
  ∀ k, ctx.rangeColumns k idx.2 = idx.2

/-- Two rows never share a non-empty key over a unique index whose columns are
visited in a stable order. -/
def KeysApart (ctx : ObscureCtx) (r1 r2 : Row) : Prop :=
  ∀ idx ∈ ctx.uniqIndexes, StableOrder ctx idx → ∀ k1 k2,
    compositeKey r1 idx.2 [] = .ok k1 → compositeKey r2 idx.2 [] = .ok k2 →
    k1 ≠ [] → k2 ≠ [] → k1 ≠ k2

/-- The invariant of the row loop over the indexes of stable order: the keys of
the kept rows are in `valueTableMap`, and the kept rows are pairwise apart. -/
def LoopInv (ctx : ObscureCtx) (st : LoopState) : Prop :=
  (∀ r ∈ st.rows, ∀ idx ∈ ctx.uniqIndexes, StableOrder ctx idx → ∀ k,
      compositeKey r idx.2 [] = .ok k → k ≠ [] → k ∈ st.valueTableMap) ∧
    st.rows.Pairwise (KeysApart ctx)

/-- A `range` order for examples: every map is visited as listed. -/
def rangeListed {α : Type} (_ : Nat) (l : List α) : List α := l

/-- A `range` order for examples: the `range` statements 0 and 1 visit a map as
listed, the later ones in the reverse order. -/
def rangeFlipped {α : Type} (k : Nat) (l : List α) : List α :=
  if k < 2 then l else l.reverse

/-- A table `id, code` with the pattern `ID-[0-9]{4}` on `code` and a unique
index on `code`, over a given sequence of generated values. -/
def demoCtx (gen : Nat → Str → Option Str) : ObscureCtx where
  doObscure := true
  obscure := some [("code".toList, "ID-[0-9]{4}".toList)]
  columns := ["id".toList, "code".toList]
  uniqIndexes := [("ux_code".toList, [("code".toList, 1)])]
  gen := gen
  rangeIndexes := rangeListed
  rangeColumns := rangeListed

/-- Generated values: `a` on the first call, `b` afterwards. -/
def genFresh (k : Nat) (_ : Str) : Option Str :=
  if k = 0 then some "a".toList else some "b".toList

/-- Generated values: `a` on the calls 0 to 9, `b` from the call 10 on, so that
the second row of a table collides nine times and is fresh the tenth time. -/
def genTenth (k : Nat) (_ : Str) : Option Str :=
  if k < 10 then some "a".toList else some "b".toList

/-- Two queried rows of the demo table. -/
def demoRows : List Row :=
  [[.num "1".toList, .str "x".toList], [.num "2".toList, .str "y".toList]]

/-- A table `id, code, tag` with a pattern on `code` and on `tag` and a unique
index on each of the two, over a given sequence of generated values. -/
def demoCtxTwo (gen : Nat → Str → Option Str) : ObscureCtx where
  doObscure := true
  obscure := some [("code".toList, "[a-z]{1}".toList), ("tag".toList, "[a-z]{1}".toList)]
  columns := ["id".toList, "code".toList, "tag".toList]
  uniqIndexes := [("ux_code".toList, [("code".toList, 1)]), ("ux_tag".toList, [("tag".toList, 2)])]
  gen := gen
  rangeIndexes := rangeListed
  rangeColumns := rangeListed

/-- Generated values, `code` on the even calls and `tag` on the odd ones: the
first row gets `a, t`, the second row `a, u` in each of its ten attempts (calls
2 to 21), the third row `c, u` in each of its attempts (calls 22 on). -/
def genReserved (k : Nat) (_ : Str) : Option Str :=
  if k % 2 = 0 then (if k < 22 then some "a".toList else some "c".toList)
  else (if k = 1 then some "t".toList else some "u".toList)

/-- Three queried rows of the table `id, code, tag`. -/
def demoRowsTwo : List Row :=
  [[.num "1".toList, .str "x".toList, .str "p".toList],
    [.num "2".toList, .str "y".toList, .str "q".toList],
    [.num "3".toList, .str "z".toList, .str "r".toList]]

/-- A table `id, a, b` with the patterns `[x]{1}` on `a` and `[y]{1}` on `b`,
which generate `x` and `y` whatever the random source, and one unique index on
the two columns `a, b`; the columns of the index are visited as listed while the
first row is checked and in the reverse order from then on. -/
def demoCtxPair : ObscureCtx where
  doObscure := true
  obscure := some [("a".toList, "[x]{1}".toList), ("b".toList, "[y]{1}".toList)]
  columns := ["id".toList, "a".toList, "b".toList]
  uniqIndexes := [("ux_a_b".toList, [("a".toList, 1), ("b".toList, 2)])]
  gen := fun k _ => if k % 2 = 0 then some "x".toList else some "y".toList
  rangeIndexes := rangeListed
  rangeColumns := rangeFlipped

/-- Two queried rows of the table `id, a, b`. -/
def demoRowsPair : List Row :=
  [[.num "1".toList, .str "p".toList, .str "q".toList],
    [.num "2".toList, .str "r".toList, .str "s".toList]]

/-! ## `main`: dispatch on the command-line flags (main.go 72-168) -/

/-- Go `strings.Split` on a one-character separator. -/
def splitChar (sep : Char) : Str → List Str
  | [] => [[]]
  | c :: cs =>
    if c = sep then [] :: splitChar sep cs
    else
      match splitChar sep cs with
      | [] => [[c]]
      | p :: ps => (c :: p) :: ps

/-- Go `strings.Contains`. -/
def contains : Str → Str → Bool
  | [], sub => sub.isEmpty
  | c :: cs, sub => sub.isPrefixOf (c :: cs) || contains cs sub

/-- The flags `flaggy.Parse` fills in. -/
structure Flags where
  /-- The value of `--export`. -/
  doExport : Str
  /-- The flag `--import`. -/
  doImport : Bool
  /-- The flag `--clean-tables`. -/
  doClean : Bool
  /-- The flag `--obscure`. -/
  doObscure : Bool
  /-- The value of `--profile`. -/
  dbProfile : Str
  /-- The value of `--config`. -/
  configFile : Str
  /-- The value of `--bulkFile`. -/
  bulkFile : Str
  deriving DecidableEq, Repr

/-- What `main` ends up doing: one of its exits, or one call into `utils`. -/
inductive Action where
  | showHelpAndExit : Action
  | exportFormatRequired : Action
  | exportConfigRequired : Action
  | importConfigRequired : Action
  | bulkFileRequired : Action
  | cleanConfigRequired : Action
  | callDbExport (dbProfile configFile exportFormat : Str) (doObscure : Bool) : Action
  | callDbImport (dbProfile configFile bulkFile : Str) (doClean : Bool) : Action
  | callDbClean (dbProfile configFile : Str) : Action
  | nothing : Action
  deriving DecidableEq, Repr

/-- The second `if` chain of `main`: the call into `utils`. -/
def dispatch (f : Flags) : Action :=
  if f.doExport ≠ [] then .callDbExport f.dbProfile f.configFile f.doExport f.doObscure
  else if f.doImport then .callDbImport f.dbProfile f.configFile f.bulkFile f.doClean
  else if f.doClean then .callDbClean f.dbProfile f.configFile
  else .nothing

/-- The function `main`: the validation chain, each of whose messages exits the
process, followed by the dispatch. -/
def main (f : Flags) : Action :=
  let profileName := (splitChar ':' f.dbProfile).headD []
  if profileName = [] ∨ (!f.doClean ∧ !f.doImport ∧ f.doExport = []) then .showHelpAndExit
  else if f.doExport ≠ [] ∧ !contains "raw|csv|json".toList f.doExport then .exportFormatRequired
  else if f.doExport ≠ [] ∧ f.configFile = [] then .exportConfigRequired
  else if f.doImport then
    if f.bulkFile ≠ [] ∧ f.configFile = [] then .importConfigRequired
    else if f.bulkFile = [] then .bulkFileRequired
    else dispatch f
  else if f.doClean ∧ f.configFile = [] then .cleanConfigRequired
  else dispatch f

/-! ## `generateNewValue` (dbutil.go 444-510)

Positions and slices count characters where Go counts bytes; the two agree on
where a match starts and ends. -/

/-- The character class `[^{}]` of the regular expression. -/
def notBrace (c : Char) : Bool :=
  c != '{' && c != '}'

/-- A match of `\[([^{}]*)\]{([^{}]*)}` at the head of the text: the two groups
and the text after the match. Group 1 holds no brace and is followed by `]{`, so
it ends right before the first brace after the opening bracket; group 2 runs to
the next brace, which has to be the closing one. -/
def matchHere : Str → Option (Str × Str × Str)
  | '[' :: t =>
    match (t.takeWhile notBrace).getLast?, t.dropWhile notBrace with
    | some ']', '{' :: u =>
      match u.dropWhile notBrace with
      | '}' :: rest => some ((t.takeWhile notBrace).dropLast, u.takeWhile notBrace, rest)
      | _ => none
    | _, _ => none
  | _ => none

/-- One match: its bounds `indexes[0]`, `indexes[1]` and its two groups. -/
structure ReMatch where
  /-- Where the match starts. -/
  start : Nat
  /-- Where the match ends. -/
  stop : Nat
  /-- The text of group 1, the character class. -/
  group1 : Str
  /-- The text of group 2, the range. -/
  group2 : Str
  deriving DecidableEq, Repr

/-- The successive leftmost matches from position `pos` on; a pass either
records a match and jumps behind it or moves one character on. -/
def findAllFrom : Nat → Nat → Str → List ReMatch
  | 0, _, _ => []
  | _ + 1, _, [] => []
  | fuel + 1, pos, c :: cs =>
    match matchHere (c :: cs) with
    | some (g1, g2, rest) =>
      ⟨pos, pos + ((c :: cs).length - rest.length), g1, g2⟩ ::
        findAllFrom fuel (pos + ((c :: cs).length - rest.length)) rest
    | none => findAllFrom fuel (pos + 1) cs

/-- The calls `re.FindAllStringIndex(s, -1)` and `re.FindAllStringSubmatch(s, -1)`:
all matches of the text. Every pass consumes a character, so `length + 1`
passes reach the end. -/
def findAll (s : Str) : List ReMatch :=
  findAllFrom (s.length + 1) 0 s

/-- The slice `s[a:b]`, a panic when the bounds are out of order or range. -/
def slice (s : Str) (a b : Nat) : Except Err Str :=
  if a ≤ b ∧ b ≤ s.length then .ok ((s.drop a).take (b - a)) else .error .sliceOutOfRange

/-- Go `unicode.IsSpace`. -/
def isSpace (c : Char) : Bool :=
  let n := c.toNat
  (9 ≤ n && n ≤ 13) || n = 0x20 || n = 0x85 || n = 0xA0 || n = 0x1680 ||
    (0x2000 ≤ n && n ≤ 0x200A) || n = 0x2028 || n = 0x2029 || n = 0x202F ||
    n = 0x205F || n = 0x3000

/-- Go `strings.TrimSpace`. -/
def trimSpace (s : Str) : Str :=
  ((s.dropWhile isSpace).reverse.dropWhile isSpace).reverse

/-- The value of a run of decimal digits. -/
def digitsValue (ds : Str) : Nat :=
  ds.foldl (fun acc c => acc * 10 + (c.toNat - 48)) 0

/-- The digits of `strconv.Atoi` once the sign is read: the value and whether
`err == nil`. A syntax error gives 0, a range error the nearest bound. -/
def atoiDigits (neg : Bool) (ds : Str) : Int × Bool :=
  if ds = [] ∨ ds.all Char.isDigit = false then (0, false)
  else if neg then
    if 2 ^ 63 < digitsValue ds then (-(2 ^ 63 : Int), false) else (-(digitsValue ds : Int), true)
  else
    if 2 ^ 63 ≤ digitsValue ds then ((2 ^ 63 : Int) - 1, false) else ((digitsValue ds : Int), true)

/-- Go `strconv.Atoi` on a 64-bit platform: an optional sign, then decimal digits. -/
def atoi : Str → Int × Bool
  | '-' :: ds => atoiDigits true ds
  | '+' :: ds => atoiDigits false ds
  | s => atoiDigits false s

/-- Arithmetic on `int` wraps at 64 bits. -/
def wrap64 (x : Int) : Int :=
  (x + 2 ^ 63) % 2 ^ 64 - 2 ^ 63

/-- The call `random.Intn(n)` on the source `src` read at `pos`: a panic for
`n <= 0`, else some number below `n`. -/
def intn (src : Nat → Nat) (pos : Nat) (n : Int) : Except Err (Nat × Nat) :=
  if n ≤ 0 then .error .invalidIntn else .ok (src pos % n.toNat, pos + 1)

/-- The loop of `rand.Perm`: `j := r.Intn(i + 1); m[i] = m[j]; m[j] = i`. -/
def permLoop (src : Nat → Nat) : Nat → Nat → Nat → List Nat → List Nat × Nat
  | 0, _, pos, m => (m, pos)
  | k + 1, i, pos, m =>
    permLoop src k (i + 1) (pos + 1) ((m.set i (m.getD (src pos % (i + 1)) 0)).set
      (src pos % (i + 1)) i)

/-- The call `random.Perm(n)`: `make([]int, n)` panics on a negative length. -/
def perm (src : Nat → Nat) (pos : Nat) (n : Int) : Except Err (List Nat × Nat) :=
  if n < 0 then .error .negativeLen
  else .ok (permLoop src n.toNat 0 pos (List.replicate n.toNat 0))

/-- The verb `%d` on a non-negative number. -/
def fmtD (n : Nat) : Str :=
  Nat.toDigits 10 n

/-- The loop `for i := range nums`: a zero is replaced by `random.Intn(8) + 1`,
and every number is written in decimal. -/
def writeNums (src : Nat → Nat) : List Nat → Nat → Str → Str × Nat
  | [], pos, buf => (buf, pos)
  | x :: xs, pos, buf =>
    if x = 0 then writeNums src xs (pos + 1) (buf ++ fmtD (src pos % 8 + 1))
    else writeNums src xs pos (buf ++ fmtD x)

/-- The branch `match[1] == "0-9"`. -/
def genDigits (src : Nat → Nat) (pos : Nat) (begIndex endIndex : Int) :
    Except Err (Str × Nat) :=
  match perm src pos begIndex with
  | .error e => .error e
  | .ok (nums, pos1) =>
    if endIndex ≠ -1 then
      match intn src pos1 (wrap64 (endIndex - begIndex)) with
      | .error e => .error e
      | .ok (k, pos2) =>
        match perm src pos2 (wrap64 ((k : Int) + begIndex)) with
        | .error e => .error e
        | .ok (nums2, pos3) => .ok (writeNums src nums2 pos3 [])
    else .ok (writeNums src nums pos1 [])

/-- What `generateNewValue` takes from outside: the random source created for
the i-th match (its successive draws), the words the fakelish library returns
there, and the case functions of `strings` applied to those words. The
library is not part of the repository: whether a call returns, and with which
word, is left to the environment. -/
structure GenEnv where
  /-- The j-th draw of the source created for the i-th match. -/
  rnd : Nat → Nat → Nat
  /-- The word `fakelish.GenerateFakeWordByLength` returns at the i-th match;
  `none` when the call does not return. -/
  fakeWordByLength : Nat → Int → Option Str
  /-- The word `fakelish.GenerateFakeWord` returns at the i-th match; `none`
  when the call does not return. -/
  fakeWord : Nat → Int → Int → Option Str
  /-- The function `strings.ToLower` on a generated word. -/
  toLower : Str → Str
  /-- The function `strings.ToUpper` on a generated word. -/
  toUpper : Str → Str
  /-- The function `strings.Title` on a generated word. -/
  title : Str → Str

/-- The branch `strings.ToLower(match[1]) == "a-z"`. -/
def genWord (env : GenEnv) (i : Nat) (g1 : Str) (begIndex endIndex : Int) : Except Err Str :=
  match (if endIndex = -1 then env.fakeWordByLength i begIndex
    else env.fakeWord i begIndex endIndex) with
  | none => .error .noReturn
  | some str =>
    if g1 = "a-z".toList then .ok (env.toLower str)
    else if g1 = "A-Z".toList then .ok (env.toUpper str)
    else .ok (env.title str)

/-- The last branch: the class text itself, `endIndex` times when a bound is set. -/
def genRepeat (g1 : Str) (endIndex : Int) : Str :=
  if endIndex ≠ -1 then g1 ++ (List.replicate (endIndex - 1).toNat g1).flatten else g1

/-- What the body of the inner loop does with one construct: return from
`generateNewValue`, append a generated string, or nothing (a lower bound that
`Atoi` rejects). -/
inductive Step where
  | stop : Step
  | emit (str : Str) : Step
  | skip : Step
  deriving DecidableEq, Repr

/-- The string generated for a construct with class `g1` and parsed bounds, from
the draw `pos` of the source `src` on. The test `strings.ToLower(match[1]) == "a-z"`
is made on the ASCII letters, the only characters that lower to `a` or `z`. -/
def genString (env : GenEnv) (i : Nat) (pos : Nat) (g1 : Str) (begIndex endIndex : Int) :
    Except Err (Str × Nat) :=
  if g1.map Char.toLower = "a-z".toList then
    match genWord env i g1 begIndex endIndex with
    | .error e => .error e
    | .ok str => .ok (str, pos)
  else if g1 = "0-9".toList then genDigits (env.rnd i) pos begIndex endIndex
  else .ok (genRepeat g1 endIndex, pos)

/-- The body of the inner loop for one submatch, up to the generated string:
the range is split at the comma, `endIndex` is -1 unless there are two parts,
and a zero lower bound stops the generation when `random.Intn(2)` is 0. -/
def construct (env : GenEnv) (i : Nat) (pos : Nat) (g1 g2 : Str) : Except Err (Step × Nat) :=
  let range := splitChar ',' g2
  let endIndex : Int := if range.length = 2 then (atoi (range.getD 1 [])).1 else -1
  if (atoi (range.headD [])).2 then
    if (atoi (range.headD [])).1 = 0 then
      if env.rnd i pos % 2 = 0 then .ok (.stop, pos + 1)
      else
        match genString env i (pos + 1) g1 (atoi (range.headD [])).1 endIndex with
        | .error e => .error e
        | .ok (str, pos1) => .ok (.emit str, pos1)
    else
      match genString env i pos g1 (atoi (range.headD [])).1 endIndex with
      | .error e => .error e
      | .ok (str, pos1) => .ok (.emit str, pos1)
  else .ok (.skip, pos)

/-- How a loop of `generateNewValue` ends: by a `return`, or normally with the
variables `partObscure` and `lastIndex`. -/
inductive Flow where
  | ret (v : Option Str) : Flow
  | next (partObscure : Str) (lastIndex : Nat) : Flow
  deriving DecidableEq, Repr

/-- The inner loop `for _, match := range re.FindAllStringSubmatch(_substr, -1)`
of the match `[start, stop)`. -/
def innerLoop (env : GenEnv) (i : Nat) (pattern : Str) (start stop : Nat) :
    List ReMatch → Str → Nat → Nat → Except Err Flow
  | [], partObscure, lastIndex, _ => .ok (.next partObscure lastIndex)
  | m :: ms, partObscure, lastIndex, pos =>
    match construct env i pos m.group1 m.group2 with
    | .error e => .error e
    | .ok (.stop, _) => .ok (.ret (if partObscure = [] then none else some partObscure))
    | .ok (.skip, pos1) => innerLoop env i pattern start stop ms partObscure lastIndex pos1
    | .ok (.emit str, pos1) =>
      match slice pattern lastIndex start with
      | .error e => .error e
      | .ok lit => innerLoop env i pattern start stop ms (partObscure ++ (lit ++ str)) stop pos1

/-- The outer loop `for _, indexes := range matches`; `i` numbers the matches. -/
def outerLoop (env : GenEnv) (pattern : Str) : List ReMatch → Nat → Str → Nat → Except Err Flow
  | [], _, partObscure, lastIndex => .ok (.next partObscure lastIndex)
  | m :: ms, i, partObscure, lastIndex =>
    match slice pattern m.start m.stop with
    | .error e => .error e
    | .ok substr =>
      match innerLoop env i pattern m.start m.stop (findAll substr) partObscure lastIndex 0 with
      | .error e => .error e
      | .ok (.ret v) => .ok (.ret v)
      | .ok (.next partObscure1 lastIndex1) => outerLoop env pattern ms (i + 1) partObscure1 lastIndex1

/-- The function `generateNewValue`: `none` is the nil pointer. -/
def generateNewValue (env : GenEnv) (pattern : Str) : Except Err (Option Str) :=
  match outerLoop env pattern (findAll pattern) 0 [] 0 with
  | .error e => .error e
  | .ok (.ret v) => .ok v
  | .ok (.next partObscure lastIndex) =>
    match slice pattern lastIndex pattern.length with
    | .error e => .error e
    | .ok rest => .ok (some (trimSpace (partObscure ++ rest)))

/-- An environment for examples: every draw is `d`, every library call returns
the empty word, the case functions act on the ASCII letters. -/
def constEnv (d : Nat) : GenEnv where
  rnd := fun _ _ => d
  fakeWordByLength := fun _ _ => some []
  fakeWord := fun _ _ _ => some []
  toLower := fun s => s.map Char.toLower
  toUpper := fun s => s.map Char.toUpper
  title := fun s => s

/-! ## `encoding/json`: unmarshalling into `interface{}` -/

/-- A JSON value; a number is the rational it stands for. In an `interface{}`
filled by `json.Unmarshal` every number is a `float64`, so the numbers met
there are the rationals `float64Round` returns. -/
inductive JVal where
  | null : JVal
  | bool (b : Bool) : JVal
  | num (x : ℚ) : JVal
  | str (s : Str) : JVal
  | arr (xs : List JVal) : JVal
  | obj (ms : List (Str × JVal)) : JVal

/-- The whitespace of JSON: the function `isSpace` of the scanner. -/
def isWs (c : Char) : Bool :=
  c = ' ' || c = '\t' || c = '\r' || c = '\n'

/-- Skipping the whitespace before a token. -/
def skipWs (s : Str) : Str :=
  s.dropWhile isWs

/-- The value of a hexadecimal digit. -/
def hexVal (c : Char) : Option Nat :=
  if '0' ≤ c ∧ c ≤ '9' then some (c.toNat - 48)
  else if 'a' ≤ c ∧ c ≤ 'f' then some (c.toNat - 87)
  else if 'A' ≤ c ∧ c ≤ 'F' then some (c.toNat - 55)
  else none

/-- The code unit written by four hexadecimal digits. -/
def hex4 (a b c d : Char) : Option Nat :=
  match hexVal a, hexVal b, hexVal c, hexVal d with
  | some x, some y, some z, some w => some (((x * 16 + y) * 16 + z) * 16 + w)
  | _, _, _, _ => none

/-- The function `getu4` of the decoder: the code unit of an escape `\uXXXX` at the head. -/
def getu4 : Str → Option Nat
  | e :: u :: a :: b :: c :: d :: _ => if e = '\\' ∧ u = 'u' then hex4 a b c d else none
  | _ => none

/-- The character of a one-letter escape. -/
def unescape (e : Char) : Option Char :=
  if e = '\"' ∨ e = '\\' ∨ e = '/' then some e
  else if e = 'b' then some (Char.ofNat 8)
  else if e = 'f' then some (Char.ofNat 12)
  else if e = 'n' then some '\n'
  else if e = 'r' then some '\r'
  else if e = 't' then some '\t'
  else none

/-- One more decoded character in front of the rest of the string. -/
def pushChar (c : Char) (r : Option (Str × Str)) : Option (Str × Str) :=
  r.map fun p => (c :: p.1, p.2)

/-- The body of a JSON string up to its closing quote, unquoted as `unquote`
does: the decoded text and the input left. `skip` counts the characters of a
low surrogate escape already consumed as the second half of a pair. -/
def parseStrFrom : Nat → Str → Option (Str × Str)
  | _, [] => none
  | skip + 1, _ :: rest => parseStrFrom skip rest
  | 0, c :: rest =>
    if c = '\"' then some ([], rest)
    else if c = '\\' then
      match rest with
      | [] => none
      | e :: rest1 =>
        if e = 'u' then
          match rest1 with
          | a :: b :: c2 :: d :: rest2 =>
            match hex4 a b c2 d with
            | none => none
            | some rr =>
              if 0xD800 ≤ rr ∧ rr < 0xE000 then
                match getu4 rest2 with
                | some rr1 =>
                  if rr < 0xDC00 ∧ 0xDC00 ≤ rr1 ∧ rr1 < 0xE000 then
                    pushChar (Char.ofNat ((rr - 0xD800) * 1024 + (rr1 - 0xDC00) + 0x10000))
                      (parseStrFrom 6 rest2)
                  else pushChar (Char.ofNat 0xFFFD) (parseStrFrom 0 rest2)
                | none => pushChar (Char.ofNat 0xFFFD) (parseStrFrom 0 rest2)
              else pushChar (Char.ofNat rr) (parseStrFrom 0 rest2)
          | _ => none
        else
          match unescape e with
          | some ch => pushChar ch (parseStrFrom 0 rest1)
          | none => none
    else if c.toNat < 0x20 then none
    else pushChar c (parseStrFrom 0 rest)

/-- The body of a JSON string, read from just behind the opening quote. -/
def parseStrBody (s : Str) : Option (Str × Str) :=
  parseStrFrom 0 s

/-- The characters a number token is made of. -/
def isNumChar (c : Char) : Bool :=
  c.isDigit || c = '-' || c = '+' || c = '.' || c = 'e' || c = 'E'

/-- The exponent part of a number, or nothing. -/
def validExp : Str → Bool
  | [] => true
  | e :: u =>
    (e = 'e' || e = 'E') &&
      match u with
      | [] => false
      | sgn :: v =>
        if sgn = '+' ∨ sgn = '-' then !v.isEmpty && v.all Char.isDigit
        else u.all Char.isDigit

/-- The fraction part of a number, or nothing, then the exponent part. -/
def validFrac : Str → Bool
  | [] => true
  | c :: u =>
    if c = '.' then
      match u with
      | [] => false
      | d :: w => d.isDigit && validExp (w.dropWhile Char.isDigit)
    else validExp (c :: u)

/-- The integer part of a number, `0` or a digit run without leading zero, then the rest. -/
def validInt : Str → Bool
  | [] => false
  | c :: t =>
    if c = '0' then validFrac t
    else if c.isDigit then validFrac (t.dropWhile Char.isDigit)
    else false

/-- The grammar of a JSON number. -/
def validNumber : Str → Bool
  | [] => false
  | c :: t => if c = '-' then validInt t else validInt (c :: t)

/-- The exponent of a number literal, read behind its digits: 0 when absent. -/
def exponentOf : Str → Int
  | [] => 0
  | e :: t =>
    if e = 'e' ∨ e = 'E' then
      match t with
      | [] => 0
      | sgn :: u =>
        if sgn = '-' then -(digitsValue u : Int)
        else if sgn = '+' then (digitsValue u : Int)
        else (digitsValue t : Int)
    else 0

/-- The magnitude of an unsigned number literal as `m * 10 ^ e`: the digits of
the integer and fraction parts read as one number, and the decimal exponent. -/
def magnitudeOf (s : Str) : Nat × Int :=
  match s.dropWhile Char.isDigit with
  | [] => (digitsValue (s.takeWhile Char.isDigit), 0)
  | c :: t =>
    if c = '.' then
      (digitsValue (s.takeWhile Char.isDigit ++ t.takeWhile Char.isDigit),
        exponentOf (t.dropWhile Char.isDigit) - ((t.takeWhile Char.isDigit).length : Int))
    else (digitsValue (s.takeWhile Char.isDigit), exponentOf (c :: t))

/-- The number `2^1024 - 2^970`, halfway between the largest float64 and `2^1024`:
from there on a decimal rounds to infinity. -/
def floatLimit : Nat :=
  179769313486231580793728971405303415079934132710037826936173778980444968292764750946649017977587207096330286416692887910946555547851940402630657488671505820681908902000708383676273854845817711531764475730270069855571366959622842914819860834936475292719074168444365510704342711559699508093042880177904174497792

/-- Whether `strconv.ParseFloat(lit, 64)` reports a range error: the magnitude
reaches `floatLimit`. -/
def floatOverflow (lit : Str) : Bool :=
  let p := magnitudeOf (if lit.head? = some '-' then lit.tail else lit)
  if 0 ≤ p.2 then decide (floatLimit ≤ p.1 * 10 ^ p.2.toNat)
  else decide (floatLimit * 10 ^ (-p.2).toNat ≤ p.1)

/-- The number a literal of the JSON number grammar writes: its digits times
the power of ten, with the sign. -/
def literalValue (lit : Str) : ℚ :=
  if lit.head? = some '-' then
    -(((magnitudeOf lit.tail).1 : ℚ) * 10 ^ (magnitudeOf lit.tail).2)
  else ((magnitudeOf lit).1 : ℚ) * 10 ^ (magnitudeOf lit).2

/-- The integer nearest to a rational, a tie going to the even one. -/
def roundHalfEven (q : ℚ) : ℤ :=
  if q - ⌊q⌋ < 1 / 2 then ⌊q⌋
  else if 1 / 2 < q - ⌊q⌋ then ⌊q⌋ + 1
  else if ⌊q⌋ % 2 = 0 then ⌊q⌋
  else ⌊q⌋ + 1

/-- The result of `strconv.ParseFloat(lit, 64)` on a literal of value `x` within
the float64 range: the float64 nearest to `x`, a tie going to the even
mantissa. A float64 is a multiple of `2 ^ p` for `p` the exponent of the last
place: 52 binary places below the leading bit of `x`, and not below `-1074`,
the exponent of the least subnormal. -/
def float64Round (x : ℚ) : ℚ :=
  if x = 0 then 0
  else
    (if x < 0 then -1 else 1) *
      (roundHalfEven (|x| / 2 ^ max (Int.log 2 |x| - 52) (-1074)) : ℚ) *
      2 ^ max (Int.log 2 |x| - 52) (-1074)

/-- One of the literals `true`, `false`, `null` at the head of the input. -/
def expect (lit : Str) (v : JVal) (s : Str) : Option (JVal × Str) :=
  if lit.isPrefixOf s then some (v, s.drop lit.length) else none

/-- The elements of an array behind its first token, each read by `pv`, up to
the closing bracket; `n` bounds their number. -/
def parseElemsWith (pv : Str → Option (JVal × Str)) : Nat → Str → Option (List JVal × Str)
  | 0, _ => none
  | n + 1, s =>
    match pv s with
    | none => none
    | some (v, r) =>
      match skipWs r with
      | c :: r2 =>
        if c = ',' then
          match parseElemsWith pv n (skipWs r2) with
          | some (vs, r3) => some (v :: vs, r3)
          | none => none
        else if c = ']' then some ([v], r2)
        else none
      | [] => none

/-- The members of an object behind its first token, each value read by `pv`,
up to the closing brace; `n` bounds their number. -/
def parseMembersWith (pv : Str → Option (JVal × Str)) :
    Nat → Str → Option (List (Str × JVal) × Str)
  | 0, _ => none
  | n + 1, s =>
    match s with
    | q :: s1 =>
      if q = '\"' then
        match parseStrBody s1 with
        | none => none
        | some (k, r) =>
          match skipWs r with
          | c :: r1 =>
            if c = ':' then
              match pv (skipWs r1) with
              | none => none
              | some (v, r2) =>
                match skipWs r2 with
                | d :: r3 =>
                  if d = ',' then
                    match parseMembersWith pv n (skipWs r3) with
                    | some (ms, r4) => some ((k, v) :: ms, r4)
                    | none => none
                  else if d = '}' then some ([(k, v)], r3)
                  else none
                | [] => none
            else none
          | [] => none
      else none
    | [] => none

/-- One JSON value at the head of the input (whitespace already skipped) and
the input left; `fuel` bounds the nesting depth (the nesting limit of later Go
releases is not part of the model). A number token is the longest run of number
characters, which has to follow the number grammar; it is stored as the
`float64` that `strconv.ParseFloat` returns for it, and a number beyond the
float64 range leaves its place nil, the conversion error being saved and
decoding going on. -/
def parseValue : Nat → Str → Option (JVal × Str)
  | 0, _ => none
  | fuel + 1, s =>
    match s with
    | [] => none
    | c :: t =>
      if c = '\"' then (parseStrBody t).map fun p => (JVal.str p.1, p.2)
      else if c = '[' then
        match skipWs t with
        | [] => none
        | d :: t1 =>
          if d = ']' then some (.arr [], t1)
          else (parseElemsWith (parseValue fuel) (d :: t1).length (d :: t1)).map
            fun p => (JVal.arr p.1, p.2)
      else if c = '{' then
        match skipWs t with
        | [] => none
        | d :: t1 =>
          if d = '}' then some (.obj [], t1)
          else (parseMembersWith (parseValue fuel) (d :: t1).length (d :: t1)).map
            fun p => (JVal.obj p.1, p.2)
      else if c = 't' then expect "true".toList (.bool true) s
      else if c = 'f' then expect "false".toList (.bool false) s
      else if c = 'n' then expect "null".toList .null s
      else if c = '-' ∨ c.isDigit then
        if validNumber (s.takeWhile isNumChar) then
          if floatOverflow (s.takeWhile isNumChar) then some (.null, s.dropWhile isNumChar)
          else some (.num (float64Round (literalValue (s.takeWhile isNumChar))),
            s.dropWhile isNumChar)
        else none
      else none

/-- The call `json.Unmarshal(data, &v)` for an `interface{}`: one value,
surrounded by whitespace only. -/
def unmarshal (data : Str) : Option JVal :=
  match parseValue (data.length + 1) (skipWs data) with
  | some (v, rest) => if skipWs rest = [] then some v else none
  | none => none

/-! ## The CSV member: written by `DbExport` (235-254), read by `DbImport` (307-321) -/

/-- A row value as `json.Marshal` can write it: a number carries a literal of
the JSON number grammar. -/
def Value.isJson : Value → Bool
  | .num lit => validNumber lit
  | _ => true

/-- A row value seen as the JSON value it stands for: a number is the number
its literal writes. -/
def Value.toJ : Value → JVal
  | .null => .null
  | .bool b => .bool b
  | .num lit => .num (literalValue lit)
  | .str s => .str s

/-- What `json.Unmarshal` stores for the text `json.Marshal` writes for a row
value: a number comes back as the nearest `float64`, or as nil beyond the
float64 range. -/
def Value.decoded : Value → JVal
  | .num lit => if floatOverflow lit then .null else .num (float64Round (literalValue lit))
  | v => v.toJ

/-- A number that a `float64` holds exactly: `m * 2 ^ e` up to the sign, with a
mantissa `m` below `2 ^ 53` and an exponent `e` from `-1074` to `971`. -/
def IsFloat64 (x : ℚ) : Prop :=
  ∃ (m : ℕ) (e : ℤ), m < 2 ^ 53 ∧ -1074 ≤ e ∧ e ≤ 971 ∧ |x| = (m : ℚ) * 2 ^ e

/-- A row value whose number, if it is one, a `float64` holds exactly. -/
def Value.InFloat64 : Value → Prop
  | .num lit => IsFloat64 (literalValue lit)
  | _ => True

/-- The line of one row, `line[:len(line)-1][1:]` for `line` the marshalled row. -/
def rowLine (row : Row) : Str :=
  ((marshalRow row).take ((marshalRow row).length - 1)).drop 1

/-- The loop `for _, row := range table.Rows` filling the buffer. -/
def csvRows : List Row → Str → Str
  | [], buf => buf
  | row :: rest, buf => csvRows rest (buf ++ rowLine row ++ ['\n'])

/-- The text of the member `<table>.csv`: the header line, then one line per row. -/
def csvText (columns : List Str) (rows : List Row) : Str :=
  csvRows rows (join [','] columns ++ ['\n'])

/-- The call `json.Unmarshal([]byte("[" + line + "]"), &row)` with its error
dropped: the decoded elements, or the nil slice. -/
def unmarshalRow (data : Str) : List JVal :=
  match unmarshal data with
  | some (.arr xs) => xs
  | _ => []

/-- The loop `for i := 1; i < len(lines); i++`: a decoded line is kept when it
has as many elements as there are columns. -/
def importRows (columns : List Str) : List Str → List (List JVal) → List (List JVal)
  | [], rows => rows
  | line :: rest, rows =>
    if (unmarshalRow ('[' :: (line ++ [']']))).length = columns.length then
      importRows columns rest (rows ++ [unmarshalRow ('[' :: (line ++ [']']))])
    else importRows columns rest rows

/-- The CSV member parser of `DbImport`: the columns and the rows of the table. -/
def parseCsv (buf : Str) : List Str × List (List JVal) :=
  (splitChar ',' ((splitChar '\n' buf).headD []),
    importRows (splitChar ',' ((splitChar '\n' buf).headD [])) ((splitChar '\n' buf).drop 1) [])

/-! ## The spec's reading of a pattern (spec 4.1, 4.2)

A second description of `generateNewValue`, following the words of the spec
and written without the functions of the code: a pattern reads as literal
stretches and bracket-brace constructs, a range as one or two decimal numerals,
and a trimmed text is what stands between the whitespace at the two ends. The
string generated for a construct is the one thing taken from the code. The
description is compared with the code further down. -/

/-- The text of a construct with class `g1` and range `g2`. -/
def constructText (g1 g2 : Str) : Str :=
  '[' :: (g1 ++ ']' :: '{' :: (g2 ++ ['}']))

/-- A text without a brace, as the class and the range of a construct are. -/
def BraceFree (s : Str) : Prop :=
  '{' ∉ s ∧ '}' ∉ s

/-- A construct stands at the head of the text. -/
def StartsWithConstruct (s : Str) : Prop :=
  ∃ g1 g2 rest, BraceFree g1 ∧ BraceFree g2 ∧ s = constructText g1 g2 ++ rest

/-- The reading of a pattern: its constructs from left to right, each with the
literal stretch before it, its class and its range, and the literal text after
the last construct. A literal stretch is text in which no construct starts, so
each construct is the leftmost one after the construct before it. -/
inductive Reading : Str → List (Str × Str × Str) → Str → Prop where
  | done (t : Str) (hlit : ∀ a b, t = a ++ b → ¬ StartsWithConstruct b) : Reading t [] t
  | step (lit g1 g2 rest : Str) (segs : List (Str × Str × Str)) (t : Str)
      (h1 : BraceFree g1) (h2 : BraceFree g2)
      (hlit : ∀ a b, lit = a ++ b → b ≠ [] →
        ¬ StartsWithConstruct (b ++ (constructText g1 g2 ++ rest)))
      (hrest : Reading rest segs t) :
      Reading (lit ++ (constructText g1 g2 ++ rest)) ((lit, g1, g2) :: segs) t

/-- The number a decimal numeral writes; `none` for a text that is not a
non-empty run of decimal digits. -/
def numeralValue (s : Str) : Option Nat :=
  if s ≠ [] ∧ s.all Char.isDigit = true then
    some (Nat.ofDigits 10 ((s.map fun c => c.toNat - 48).reverse))
  else none

/-- The range text reads as the bounds `n` and, when a second one is given,
`m`: the text is `n` or `n,m` in decimal numerals that fit an `int`, with a
non-zero lower bound `n`, and `n < m`. -/
def IsRange (g2 : Str) (n : Nat) : Option Nat → Prop
  | none => numeralValue g2 = some n ∧ 1 ≤ n ∧ n < 2 ^ 63
  | some m => ∃ a b, g2 = a ++ ',' :: b ∧ numeralValue a = some n ∧ numeralValue b = some m ∧
      1 ≤ n ∧ n < m ∧ m < 2 ^ 63

/-- The call of the fakelish library made for the i-th construct, of class `g1`
and bounds `n` and `m`, returns. Only a class `a-z`, in whatever letter case,
makes a call. -/
def LibraryReturns (env : GenEnv) (i : Nat) (g1 : Str) (n : Nat) : Option Nat → Prop
  | none => g1.map Char.toLower = "a-z".toList → (env.fakeWordByLength i n).isSome = true
  | some m => g1.map Char.toLower = "a-z".toList → (env.fakeWord i n m).isSome = true

/-- The concatenation, in order, of each literal stretch and of the string
generated for the construct that follows it; the i-th construct draws from the
i-th random source. -/
def specConcat (env : GenEnv) : Nat → List (Str × Str × Str) → Option Str
  | _, [] => some []
  | i, (lit, g1, g2) :: rest =>
    match construct env i 0 g1 g2 with
    | .ok (.emit str, _) => (specConcat env (i + 1) rest).map fun t => lit ++ str ++ t
    | _ => none

/-- The whitespace characters: the Unicode characters of the property
White_Space, which are the tab, line feed, vertical tab, form feed, carriage
return, the space, U+0085, U+00A0, U+1680, U+2000 to U+200A, U+2028, U+2029,
U+202F, U+205F and U+3000. -/
def whitespaceChars : List Char :=
  [Char.ofNat 0x09, Char.ofNat 0x0A, Char.ofNat 0x0B, Char.ofNat 0x0C, Char.ofNat 0x0D,
    Char.ofNat 0x20, Char.ofNat 0x85, Char.ofNat 0xA0, Char.ofNat 0x1680,
    Char.ofNat 0x2000, Char.ofNat 0x2001, Char.ofNat 0x2002, Char.ofNat 0x2003,
    Char.ofNat 0x2004, Char.ofNat 0x2005, Char.ofNat 0x2006, Char.ofNat 0x2007,
    Char.ofNat 0x2008, Char.ofNat 0x2009, Char.ofNat 0x200A, Char.ofNat 0x2028,
    Char.ofNat 0x2029, Char.ofNat 0x202F, Char.ofNat 0x205F, Char.ofNat 0x3000]

/-- The text `v` is the text `s` with the surrounding whitespace trimmed: `s`
is `v` between two runs of whitespace characters, and `v` neither begins nor
ends with a whitespace character. -/
def IsTrimOf (s v : Str) : Prop :=
  ∃ l r, s = l ++ v ++ r ∧ (∀ c ∈ l, c ∈ whitespaceChars) ∧ (∀ c ∈ r, c ∈ whitespaceChars) ∧
    (∀ c, v.head? = some c → c ∉ whitespaceChars) ∧
    (∀ c, v.getLast? = some c → c ∉ whitespaceChars)

/-! ## The reading of a pattern, computed

The reading of a pattern computed with the matcher of the code. It serves in
the proofs: it is a reading in the sense of `Reading`, and the only one. -/

/-- The reading of a text computed from left to right, `lit` being the stretch
read so far: the first component lists the constructs, the second is the
trailing text. -/
def segmentsFrom : Nat → Str → Str → List (Str × Str × Str) × Str
  | 0, s, lit => ([], lit ++ s)
  | _ + 1, [], lit => ([], lit)
  | fuel + 1, c :: cs, lit =>
    match matchHere (c :: cs) with
    | some (g1, g2, rest) =>
      ((lit, g1, g2) :: (segmentsFrom fuel rest []).1, (segmentsFrom fuel rest []).2)
    | none => segmentsFrom fuel cs (lit ++ [c])

/-- The computed reading of a pattern: it is a reading, and the only one. -/
def segments (pattern : Str) : List (Str × Str × Str) × Str :=
  segmentsFrom (pattern.length + 1) pattern []

/-! ## Theorems -/

/-! ### The obscuring loop -/

theorem pairwise_at {α : Type} (R : α → α → Prop) (hsymm : ∀ a b, R a b → R b a)
    (l : List α) (hp : l.Pairwise R) (i j : Nat) (a b : α) (hij : i ≠ j)
    (hi : l[i]? = some a) (hj : l[j]? = some b) : R a b := by
  obtain ⟨hi1, hi2⟩ := List.getElem?_eq_some.mp hi
  obtain ⟨hj1, hj2⟩ := List.getElem?_eq_some.mp hj
  rw [List.pairwise_iff_getElem] at hp
  rcases Nat.lt_or_gt_of_ne hij with hlt | hgt
  · have := hp i j hi1 hj1 hlt
    rwa [hi2, hj2] at this
  · have := hp j i hj1 hi1 hgt
    rw [hi2, hj2] at this
    exact hsymm _ _ this

/-- A pass of the index loop: over every index of stable order the key of the
row is recorded in `valueRowMap` and, before the tenth attempt, is not in
`valueTableMap`. -/
theorem checkIndexes_pass (ctx : ObscureCtx) (vtm : List Str) (retry : Nat) (row : Row) :
    ∀ (idxs : List (Str × IndexMap)) (acc : List Str) (tick : Nat) (vrm : List Str)
      (tick1 : Nat),
      checkIndexes ctx vtm retry row idxs acc tick = .ok (.pass vrm, tick1) →
      (∀ k ∈ acc, k ∈ vrm) ∧
      ∀ idx ∈ idxs, StableOrder ctx idx → ∀ k, compositeKey row idx.2 [] = .ok k → k ≠ [] →
        k ∈ vrm ∧ (retry < maxRetry → k ∉ vtm) := by
  intro idxs
  induction idxs with
  | nil =>
    intro acc tick vrm tick1 h
    simp only [checkIndexes, Except.ok.injEq, Prod.mk.injEq, Check.pass.injEq] at h
    obtain ⟨h, _⟩ := h
    subst h
    exact ⟨fun k hk => hk, fun idx hidx => by cases hidx⟩
  | cons hd tl ih =>
    intro acc tick vrm tick1 h
    obtain ⟨nm, indexes⟩ := hd
    simp only [checkIndexes] at h
    cases hk : compositeKey row (ctx.rangeColumns tick indexes) [] with
    | error e => simp [hk] at h
    | ok val =>
      simp only [hk] at h
      by_cases hval : val = []
      · simp only [hval, ne_eq, not_true_eq_false, if_false] at h
        obtain ⟨h1, h2⟩ := ih acc _ vrm tick1 h
        refine ⟨h1, ?_⟩
        intro idx hidx hst k hck hne
        rcases List.mem_cons.mp hidx with rfl | hmem
        · have hs := hst tick
          simp only at hs hck
          rw [hs, hck] at hk
          injection hk with hk
          exact absurd (hk ▸ hval) hne
        · exact h2 idx hmem hst k hck hne
      · simp only [ne_eq, hval, not_false_eq_true, if_true] at h
        by_cases hdup : val ∈ vtm ∧ retry < maxRetry
        · simp [hdup] at h
        · simp only [hdup, if_false] at h
          obtain ⟨h1, h2⟩ := ih (acc ++ [val]) _ vrm tick1 h
          refine ⟨fun k hk => h1 k (List.mem_append_left _ hk), ?_⟩
          intro idx hidx hst k hck hne
          rcases List.mem_cons.mp hidx with rfl | hmem
          · have hs := hst tick
            simp only at hs hck
            rw [hs, hck] at hk
            injection hk with hk
            subst hk
            refine ⟨h1 _ (by simp), ?_⟩
            intro hr hin
            exact hdup ⟨hin, hr⟩
          · exact h2 idx hmem hst k hck hne

/-- The result of the label loop comes from a pass of the index loop over the
indexes, in the order of some `range` statement. -/
theorem generateObscureValue_ok (ctx : ObscureCtx) (vtm : List Str) :
    ∀ (fuel retry : Nat) (row : Row) (ctr tick : Nat) (a : Attempt),
      generateObscureValue ctx vtm fuel retry row ctr tick = .ok a →
      ∃ t, checkIndexes ctx vtm a.retry a.row (ctx.rangeIndexes t ctx.uniqIndexes) [] (t + 1)
        = .ok (.pass a.valueRowMap, a.tick) := by
  intro fuel
  induction fuel with
  | zero => intro retry row ctr tick a h; simp [generateObscureValue] at h
  | succ n ih =>
    intro retry row ctr tick a h
    simp only [generateObscureValue] at h
    cases ho : obscureStep ctx row ctr with
    | error e => simp [ho] at h
    | ok p =>
      obtain ⟨row1, ctr1⟩ := p
      simp only [ho] at h
      cases hc : checkIndexes ctx vtm (retry + 1) row1
          (ctx.rangeIndexes tick ctx.uniqIndexes) [] (tick + 1) with
      | error e => simp [hc] at h
      | ok c =>
        obtain ⟨c, tick1⟩ := c
        cases c with
        | again =>
          simp only [hc] at h
          exact ih _ _ _ _ _ h
        | pass vrm =>
          simp only [hc, Except.ok.injEq] at h
          subst h
          exact ⟨tick, hc⟩

/-- With no null at its columns, the key loop returns an accumulator that only grew. -/
theorem compositeKey_of_noNull (row : Row) :
    ∀ (indexes : IndexMap) (val : Str), noNullAt row indexes = true →
      ∃ k, compositeKey row indexes val = .ok k ∧ val.length ≤ k.length ∧
        (indexes ≠ [] → val.length < k.length) := by
  intro indexes
  induction indexes with
  | nil => intro val _; exact ⟨val, rfl, le_refl _, fun h => absurd rfl h⟩
  | cons hd tl ih =>
    intro val h
    obtain ⟨colName, index⟩ := hd
    simp only [noNullAt, List.all_cons, Bool.and_eq_true] at h
    obtain ⟨h1, h2⟩ := h
    cases hr : rowAt row index with
    | error e => simp [hr] at h1
    | ok v =>
      simp only [hr, Bool.not_eq_true'] at h1
      obtain ⟨k, hk, hle, _⟩ := ih (val ++ colName ++ ['='] ++ marshal v ++ ['_']) h2
      refine ⟨k, ?_, ?_, ?_⟩
      · simp only [compositeKey, hr, h1]
        simpa using hk
      · simp only [List.length_append, List.length_singleton] at hle
        omega
      · intro _
        simp only [List.length_append, List.length_singleton] at hle
        omega

theorem exportRow_inv (ctx : ObscureCtx) (hperm : ctx.Permutes) (fuel : Nat)
    (st st1 : LoopState) (row : Row)
    (hinv : LoopInv ctx st) (h : exportRow ctx fuel st row = .ok st1) : LoopInv ctx st1 := by
  unfold exportRow at h
  cases hg : generateObscureValue ctx st.valueTableMap fuel 0 row st.ctr st.tick with
  | error e => simp [hg] at h
  | ok a =>
    simp only [hg] at h
    obtain ⟨t, hc⟩ := generateObscureValue_ok ctx _ _ _ _ _ _ _ hg
    obtain ⟨_, hkeys0⟩ := checkIndexes_pass _ _ _ _ _ _ _ _ _ hc
    have hkeys : ∀ idx ∈ ctx.uniqIndexes, StableOrder ctx idx → ∀ k,
        compositeKey a.row idx.2 [] = .ok k → k ≠ [] →
        k ∈ a.valueRowMap ∧ (a.retry < maxRetry → k ∉ st.valueTableMap) :=
      fun idx hidx => hkeys0 idx ((hperm.1 t ctx.uniqIndexes).mem_iff.mpr hidx)
    obtain ⟨hmem, hpw⟩ := hinv
    by_cases hr : a.retry < maxRetry
    · simp only [hr, if_true, Except.ok.injEq] at h
      subst h
      constructor
      · intro r hrmem idx hidx hst k hk hne
        simp only [List.mem_append, List.mem_singleton] at hrmem ⊢
        rcases hrmem with hrmem | rfl
        · exact Or.inl (hmem r hrmem idx hidx hst k hk hne)
        · exact Or.inr (hkeys idx hidx hst k hk hne).1
      · simp only
        rw [List.pairwise_append]
        refine ⟨hpw, List.pairwise_singleton _ _, ?_⟩
        intro r1 hr1 r2 hr2
        rw [List.mem_singleton] at hr2
        subst hr2
        intro idx hidx hst k1 k2 hk1 hk2 hne1 hne2 heq
        have hin := hmem r1 hr1 idx hidx hst k1 hk1 hne1
        exact (hkeys idx hidx hst k2 hk2 hne2).2 hr (heq ▸ hin)
    · simp only [hr, if_false, Except.ok.injEq] at h
      subst h
      constructor
      · intro r hrmem idx hidx hst k hk hne
        exact List.mem_append_left _ (hmem r hrmem idx hidx hst k hk hne)
      · exact hpw

theorem exportRows_inv (ctx : ObscureCtx) (hperm : ctx.Permutes) (fuel : Nat) :
    ∀ (rows : List Row) (st out : LoopState), LoopInv ctx st →
      exportRows ctx fuel st rows = .ok out → LoopInv ctx out := by
  intro rows
  induction rows with
  | nil =>
    intro st out hinv h
    simp only [exportRows, Except.ok.injEq] at h
    exact h ▸ hinv
  | cons row rest ih =>
    intro st out hinv h
    simp only [exportRows] at h
    cases hs : exportRow ctx fuel st row with
    | error e => simp [hs] at h
    | ok st1 =>
      simp only [hs] at h
      exact ih st1 out (exportRow_inv ctx hperm fuel st st1 row hinv hs) h

theorem keysApart_symm (ctx : ObscureCtx) (r1 r2 : Row) (h : KeysApart ctx r1 r2) :
    KeysApart ctx r2 r1 :=
  fun idx hidx hst k1 k2 hk1 hk2 hne1 hne2 heq =>
    h idx hidx hst k2 k1 hk2 hk1 hne2 hne1 heq.symm

/-- What the loop does guarantee. When every `range` statement visits each
entry of its map once, two rows kept at different positions of the output of a
table have different composite keys over every unique index (with at least one
column) whose columns are visited in the same order by every `range` statement
and at whose columns neither row has a null. -/
theorem exportTable_unique_keys_stable_order (ctx : ObscureCtx) (hperm : ctx.Permutes)
    (ctr : Nat) (rows : List Row)
    (out : LoopState) (hrun : exportTable ctx ctr rows = .ok out)
    (i j : Nat) (ri rj : Row) (hij : i ≠ j)
    (hi : out.rows[i]? = some ri) (hj : out.rows[j]? = some rj)
    (idx : Str × IndexMap) (hidx : idx ∈ ctx.uniqIndexes) (hst : StableOrder ctx idx)
    (hcols : idx.2 ≠ [])
    (hni : noNullAt ri idx.2 = true) (hnj : noNullAt rj idx.2 = true) :
    compositeKey ri idx.2 [] ≠ compositeKey rj idx.2 [] := by
  have hinv : LoopInv ctx out :=
    exportRows_inv ctx hperm maxRetry rows _ out
      ⟨fun r hr => absurd hr (List.not_mem_nil r), List.Pairwise.nil⟩ hrun
  obtain ⟨ki, hki, _, hli⟩ := compositeKey_of_noNull ri idx.2 [] hni
  obtain ⟨kj, hkj, _, hlj⟩ := compositeKey_of_noNull rj idx.2 [] hnj
  have hnei : ki ≠ [] := by
    intro h; have := hli hcols; simp [h] at this
  have hnej : kj ≠ [] := by
    intro h; have := hlj hcols; simp [h] at this
  have hapart : KeysApart ctx ri rj :=
    pairwise_at (KeysApart ctx) (keysApart_symm ctx) out.rows hinv.2 i j ri rj hij hi hj
  rw [hki, hkj]
  intro heq
  injection heq with heq
  exact hapart idx hidx hst ki kj hki hkj hnei hnej heq

/-- An index of one column is visited in a stable order by every `range`
statement, there being one order only. -/
theorem stableOrder_of_single (ctx : ObscureCtx) (hperm : ctx.Permutes)
    (idx : Str × IndexMap) (hlen : idx.2.length = 1) : StableOrder ctx idx := by
  intro k
  obtain ⟨c, hc⟩ := List.length_eq_one.mp hlen
  have := hperm.2 k idx.2
  rw [hc] at this ⊢
  exact List.perm_singleton.mp this

theorem rangeListed_perm {α : Type} (k : Nat) (l : List α) : (rangeListed k l).Perm l :=
  List.Perm.refl l

theorem rangeFlipped_perm {α : Type} (k : Nat) (l : List α) : (rangeFlipped k l).Perm l := by
  unfold rangeFlipped
  split
  · exact List.Perm.refl l
  · exact List.reverse_perm l

theorem exportTable_unique_keys_stable_order_witness :
    exportTable (demoCtx genFresh) 0 demoRows =
      .ok ⟨["code=\"a\"_".toList, "code=\"b\"_".toList],
        [[.num "1".toList, .str "a".toList], [.num "2".toList, .str "b".toList]], 2, 4⟩ ∧
    compositeKey [.num "1".toList, .str "a".toList] [("code".toList, 1)] [] ≠
      compositeKey [.num "2".toList, .str "b".toList] [("code".toList, 1)] [] :=
  ⟨by rfl,
    exportTable_unique_keys_stable_order (demoCtx genFresh)
      ⟨rangeListed_perm, rangeListed_perm⟩ 0 demoRows _ (by rfl) 0 1 _ _ (by decide)
      (by rfl) (by rfl) ("ux_code".toList, [("code".toList, 1)]) (by simp [demoCtx])
      (fun _ => rfl) (by simp) (by rfl) (by rfl)⟩

/-- C1, evaluated at the failing input. In the table `id, a, b` with one unique
index on the two columns `a, b`, both rows get the generated values `x, y`, the
only values their patterns generate. The `range` over the columns of the index
visits them as `a, b` when the first row is checked and as `b, a` when the
second row is, so the key text `b="y"_a="x"_` of the second row is not in
`valueTableMap` and both rows are kept at the first attempt. Yet neither row
has a null at an indexed column and the two rows hold the same values there:
their composite keys over the index are equal, in whichever order the columns
are taken. Each order visits every entry of its map once. With the columns
visited as listed throughout, the second row collides in each of its ten
attempts and is dropped. -/
theorem two_column_index_keeps_duplicate :
    exportTable demoCtxPair 0 demoRowsPair
      = .ok ⟨["a=\"x\"_b=\"y\"_".toList, "b=\"y\"_a=\"x\"_".toList],
          [[.num "1".toList, .str "x".toList, .str "y".toList],
            [.num "2".toList, .str "x".toList, .str "y".toList]], 4, 4⟩ ∧
    demoCtxPair.Permutes ∧
    noNullAt [.num "1".toList, .str "x".toList, .str "y".toList]
      [("a".toList, 1), ("b".toList, 2)] = true ∧
    noNullAt [.num "2".toList, .str "x".toList, .str "y".toList]
      [("a".toList, 1), ("b".toList, 2)] = true ∧
    compositeKey [.num "1".toList, .str "x".toList, .str "y".toList]
        [("a".toList, 1), ("b".toList, 2)] []
      = compositeKey [.num "2".toList, .str "x".toList, .str "y".toList]
        [("a".toList, 1), ("b".toList, 2)] [] ∧
    compositeKey [.num "1".toList, .str "x".toList, .str "y".toList]
        [("b".toList, 2), ("a".toList, 1)] []
      = compositeKey [.num "2".toList, .str "x".toList, .str "y".toList]
        [("b".toList, 2), ("a".toList, 1)] [] ∧
    (∀ env : GenEnv, generateNewValue env "[x]{1}".toList = .ok (some "x".toList) ∧
      generateNewValue env "[y]{1}".toList = .ok (some "y".toList)) ∧
    exportTable { demoCtxPair with rangeColumns := rangeListed } 0 demoRowsPair
      = .ok ⟨["a=\"x\"_b=\"y\"_".toList, "a=\"x\"_b=\"y\"_".toList],
          [[.num "1".toList, .str "x".toList, .str "y".toList]], 22, 22⟩ :=
  ⟨by rfl, ⟨rangeListed_perm, rangeFlipped_perm⟩, by rfl, by rfl, by rfl, by rfl,
    fun _ => ⟨by rfl, by rfl⟩, by rfl⟩

theorem obscureRow_ctr (gen : Nat → Str → Option Str) (m : List (Str × Str)) :
    ∀ (cols : List Str) (row : Row) (ctr : Nat) (row1 : Row) (ctr1 : Nat),
      obscureRow gen m cols row ctr = .ok (row1, ctr1) →
      ctr1 = ctr + (cols.filter fun name => decide (lookupPattern m name ≠ [])).length := by
  intro cols
  induction cols with
  | nil =>
    intro row ctr row1 ctr1 h
    simp only [obscureRow, Except.ok.injEq, Prod.mk.injEq] at h
    simp [h.2]
  | cons name cols ih =>
    intro row ctr row1 ctr1 h
    by_cases hp : lookupPattern m name = []
    · cases row with
      | nil =>
        simp only [obscureRow, hp, ne_eq, not_true_eq_false, if_false] at h
        have := ih _ _ _ _ h
        simp [List.filter_cons, hp, this]
      | cons v row =>
        simp only [obscureRow, hp, ne_eq, not_true_eq_false, if_false] at h
        cases ho : obscureRow gen m cols row ctr with
        | error e => simp [ho] at h
        | ok p =>
          obtain ⟨r2, c2⟩ := p
          simp only [ho, Except.ok.injEq, Prod.mk.injEq] at h
          have := ih _ _ _ _ ho
          simp [List.filter_cons, hp, ← h.2, this]
    · cases row with
      | nil => simp [obscureRow, hp] at h
      | cons v row =>
        simp only [obscureRow, hp, ne_eq, not_false_eq_true, if_true] at h
        cases ho : obscureRow gen m cols row (ctr + 1) with
        | error e => simp [ho] at h
        | ok p =>
          obtain ⟨r2, c2⟩ := p
          simp only [ho, Except.ok.injEq, Prod.mk.injEq] at h
          have := ih _ _ _ _ ho
          simp only [List.filter_cons, hp, ne_eq, not_false_eq_true, decide_True, if_true,
            List.length_cons, ← h.2, this]
          omega

theorem obscureStep_ctr (ctx : ObscureCtx) (row : Row) (ctr : Nat) (row1 : Row) (ctr1 : Nat)
    (h : obscureStep ctx row ctr = .ok (row1, ctr1)) : ctr1 = ctr + obscuredColumns ctx := by
  unfold obscureStep at h
  unfold obscuredColumns
  cases hd : ctx.doObscure <;> cases ho : ctx.obscure <;>
    simp only [hd, ho, Except.ok.injEq, Prod.mk.injEq] at h ⊢
  · omega
  · omega
  · omega
  · exact obscureRow_ctr _ _ _ _ _ _ _ h

theorem obscureRow_error (gen : Nat → Str → Option Str) (m : List (Str × Str)) :
    ∀ (cols : List Str) (row : Row) (ctr : Nat) (e : Err),
      obscureRow gen m cols row ctr = .error e → e = .indexOutOfRange := by
  intro cols
  induction cols with
  | nil => intro row ctr e h; simp [obscureRow] at h
  | cons name cols ih =>
    intro row ctr e h
    cases row with
    | nil =>
      by_cases hp : lookupPattern m name = []
      · simp only [obscureRow, hp, ne_eq, not_true_eq_false, if_false] at h
        exact ih _ _ _ h
      · simp only [obscureRow, hp, ne_eq, not_false_eq_true, if_true, Except.error.injEq] at h
        exact h.symm
    | cons v row =>
      by_cases hp : lookupPattern m name = []
      · simp only [obscureRow, hp, ne_eq, not_true_eq_false, if_false] at h
        cases ho : obscureRow gen m cols row ctr with
        | error e1 =>
          simp only [ho, Except.error.injEq] at h
          exact h ▸ ih _ _ _ ho
        | ok p => simp [ho] at h
      · simp only [obscureRow, hp, ne_eq, not_false_eq_true, if_true] at h
        cases ho : obscureRow gen m cols row (ctr + 1) with
        | error e1 =>
          simp only [ho, Except.error.injEq] at h
          exact h ▸ ih _ _ _ ho
        | ok p => simp [ho] at h

theorem obscureStep_error (ctx : ObscureCtx) (row : Row) (ctr : Nat) (e : Err)
    (h : obscureStep ctx row ctr = .error e) : e = .indexOutOfRange := by
  unfold obscureStep at h
  cases hd : ctx.doObscure <;> cases ho : ctx.obscure <;> simp only [hd, ho] at h
  · cases h
  · cases h
  · cases h
  · exact obscureRow_error _ _ _ _ _ _ h

theorem rowAt_error (row : Row) (index : Int) (e : Err) (h : rowAt row index = .error e) :
    e = .indexOutOfRange := by
  unfold rowAt at h
  split at h
  · split at h
    · cases h
    · injection h with h; exact h.symm
  · injection h with h; exact h.symm

theorem compositeKey_error (row : Row) :
    ∀ (indexes : IndexMap) (val : Str) (e : Err),
      compositeKey row indexes val = .error e → e = .indexOutOfRange := by
  intro indexes
  induction indexes with
  | nil => intro val e h; simp [compositeKey] at h
  | cons hd tl ih =>
    intro val e h
    obtain ⟨colName, index⟩ := hd
    simp only [compositeKey] at h
    cases hr : rowAt row index with
    | error e1 =>
      simp only [hr, Except.error.injEq] at h
      exact h ▸ rowAt_error _ _ _ hr
    | ok v =>
      simp only [hr] at h
      split at h
      · cases h
      · exact ih _ _ h

theorem checkIndexes_error (ctx : ObscureCtx) (vtm : List Str) (retry : Nat) (row : Row) :
    ∀ (idxs : List (Str × IndexMap)) (acc : List Str) (tick : Nat) (e : Err),
      checkIndexes ctx vtm retry row idxs acc tick = .error e → e = .indexOutOfRange := by
  intro idxs
  induction idxs with
  | nil => intro acc tick e h; simp [checkIndexes] at h
  | cons hd tl ih =>
    intro acc tick e h
    obtain ⟨nm, indexes⟩ := hd
    simp only [checkIndexes] at h
    cases hk : compositeKey row (ctx.rangeColumns tick indexes) [] with
    | error e1 =>
      simp only [hk, Except.error.injEq] at h
      exact h ▸ compositeKey_error _ _ _ _ hk
    | ok val =>
      simp only [hk] at h
      split at h
      · split at h
        · cases h
        · exact ih _ _ _ h
      · exact ih _ _ _ h

theorem checkIndexes_again (ctx : ObscureCtx) (vtm : List Str) (retry : Nat) (row : Row) :
    ∀ (idxs : List (Str × IndexMap)) (acc : List Str) (tick tick1 : Nat),
      checkIndexes ctx vtm retry row idxs acc tick = .ok (.again, tick1) →
        retry < maxRetry := by
  intro idxs
  induction idxs with
  | nil => intro acc tick tick1 h; simp [checkIndexes] at h
  | cons hd tl ih =>
    intro acc tick tick1 h
    obtain ⟨nm, indexes⟩ := hd
    simp only [checkIndexes] at h
    cases hk : compositeKey row (ctx.rangeColumns tick indexes) [] with
    | error e => simp [hk] at h
    | ok val =>
      simp only [hk] at h
      by_cases hval : val = []
      · simp only [hval, ne_eq, not_true_eq_false, if_false] at h
        exact ih _ _ _ h
      · simp only [ne_eq, hval, not_false_eq_true, if_true] at h
        by_cases hdup : val ∈ vtm ∧ retry < maxRetry
        · exact hdup.2
        · simp only [hdup, if_false] at h
          exact ih _ _ _ h

/-- The label loop started at `retry` with enough passes left: it ends, by a
result or by an access outside the row; a result has generated values
`a.retry - retry` times, at most up to `retry = maxRetry`. -/
theorem generateObscureValue_total (ctx : ObscureCtx) (vtm : List Str) :
    ∀ (fuel retry : Nat) (row : Row) (ctr tick : Nat), 1 ≤ fuel → maxRetry ≤ fuel + retry →
      (∃ a, generateObscureValue ctx vtm fuel retry row ctr tick = .ok a ∧ retry < a.retry ∧
        a.retry ≤ max (retry + 1) maxRetry ∧
        a.ctr = ctr + (a.retry - retry) * obscuredColumns ctx) ∨
      generateObscureValue ctx vtm fuel retry row ctr tick = .error .indexOutOfRange := by
  intro fuel
  induction fuel with
  | zero => intro retry row ctr tick h; omega
  | succ n ih =>
    intro retry row ctr tick _ hfuel
    simp only [generateObscureValue]
    cases ho : obscureStep ctx row ctr with
    | error e => right; rw [obscureStep_error _ _ _ _ ho]
    | ok p =>
      obtain ⟨row1, ctr1⟩ := p
      have hctr := obscureStep_ctr _ _ _ _ _ ho
      simp only
      cases hc : checkIndexes ctx vtm (retry + 1) row1
          (ctx.rangeIndexes tick ctx.uniqIndexes) [] (tick + 1) with
      | error e => right; rw [checkIndexes_error _ _ _ _ _ _ _ _ hc]
      | ok c =>
        obtain ⟨c, tick1⟩ := c
        cases c with
        | again =>
          have hlt := checkIndexes_again _ _ _ _ _ _ _ _ hc
          simp only
          rcases ih (retry + 1) row1 ctr1 tick1 (by omega) (by omega)
            with ⟨a, ha, h1, h2, h3⟩ | herr
          · left
            refine ⟨a, ha, by omega, ?_, ?_⟩
            · rw [max_eq_right (by omega)] at h2
              exact le_trans h2 (le_max_right _ _)
            · rw [h3, hctr]
              have : a.retry - retry = (a.retry - (retry + 1)) + 1 := by omega
              rw [this, Nat.add_mul]
              omega
          · right; exact herr
        | pass vrm =>
          left
          refine ⟨_, rfl, by simp, by simp, ?_⟩
          simp [hctr]

/-- C3. Retry bound: for every row, table state, set of unique indexes,
sequence of generated values and order of the `range` statements, the label loop of one row ends (given at least
`maxRetry` passes) with values generated at most 10 times, after which the row
is either kept or dropped; the only other way out is the Go panic of an access
outside the row. -/
theorem exportRow_retry_bound (ctx : ObscureCtx) (fuel : Nat) (st : LoopState) (row : Row)
    (hfuel : maxRetry ≤ fuel) :
    (∃ a, generateObscureValue ctx st.valueTableMap fuel 0 row st.ctr st.tick = .ok a ∧
        1 ≤ a.retry ∧ a.retry ≤ 10 ∧ a.ctr = st.ctr + a.retry * obscuredColumns ctx ∧
        (exportRow ctx fuel st row
            = .ok ⟨st.valueTableMap ++ a.valueRowMap, st.rows ++ [a.row], a.ctr, a.tick⟩ ∨
          exportRow ctx fuel st row
            = .ok ⟨st.valueTableMap ++ a.valueRowMap, st.rows, a.ctr, a.tick⟩)) ∨
      exportRow ctx fuel st row = .error .indexOutOfRange := by
  have hm : maxRetry = 10 := rfl
  rcases generateObscureValue_total ctx st.valueTableMap fuel 0 row st.ctr st.tick
      (by omega) (by omega)
    with ⟨a, ha, h1, h2, h3⟩ | herr
  · left
    refine ⟨a, ha, by omega, ?_, by simpa using h3, ?_⟩
    · rw [hm] at h2; simpa using h2
    · unfold exportRow
      simp only [ha]
      by_cases hr : a.retry < maxRetry
      · left; simp [hr]
      · right; simp [hr]
  · right
    unfold exportRow
    simp [herr]

theorem exportRow_retry_bound_witness :
    (∃ a, generateObscureValue (demoCtx genTenth) ["code=\"a\"_".toList] 10 0
          [.num "2".toList, .str "y".toList] 1 2 = .ok a ∧
        1 ≤ a.retry ∧ a.retry ≤ 10 ∧ a.ctr = 1 + a.retry * obscuredColumns (demoCtx genTenth) ∧
        (exportRow (demoCtx genTenth) 10 ⟨["code=\"a\"_".toList], [], 1, 2⟩
              [.num "2".toList, .str "y".toList]
            = .ok ⟨["code=\"a\"_".toList] ++ a.valueRowMap, [] ++ [a.row], a.ctr, a.tick⟩ ∨
          exportRow (demoCtx genTenth) 10 ⟨["code=\"a\"_".toList], [], 1, 2⟩
              [.num "2".toList, .str "y".toList]
            = .ok ⟨["code=\"a\"_".toList] ++ a.valueRowMap, [], a.ctr, a.tick⟩)) ∨
      exportRow (demoCtx genTenth) 10 ⟨["code=\"a\"_".toList], [], 1, 2⟩
        [.num "2".toList, .str "y".toList] = .error .indexOutOfRange :=
  exportRow_retry_bound (demoCtx genTenth) 10 ⟨["code=\"a\"_".toList], [], 1, 2⟩
    [.num "2".toList, .str "y".toList] (by decide)

/-- C10, evaluated at the failing input. The second row of the demo table
collides on its attempts 1 to 9; its tenth attempt yields the key `code="b"_`,
which is not in the cumulative key set, and the row is dropped all the same.
The one index has one column, so the order of the `range` statements plays no part. -/
theorem tenth_attempt_fresh_but_dropped :
    generateObscureValue (demoCtx genTenth) ["code=\"a\"_".toList] maxRetry 0
        [.num "2".toList, .str "y".toList] 1 2
      = .ok ⟨[.num "2".toList, .str "b".toList], 10, 11, 22, ["code=\"b\"_".toList]⟩ ∧
    "code=\"b\"_".toList ∉ ["code=\"a\"_".toList] ∧
    exportTable (demoCtx genTenth) 0 demoRows
      = .ok ⟨["code=\"a\"_".toList, "code=\"b\"_".toList],
          [[.num "1".toList, .str "a".toList]], 11, 22⟩ :=
  ⟨by rfl, by decide, by rfl⟩

/-- The commit of `valueRowMap` does not look at `retry`: whether the row is
kept or dropped, the keys of its last attempt are appended to `valueTableMap`. -/
theorem exportRow_commits (ctx : ObscureCtx) (fuel : Nat) (st st1 : LoopState) (row : Row)
    (h : exportRow ctx fuel st row = .ok st1) :
    ∃ a, generateObscureValue ctx st.valueTableMap fuel 0 row st.ctr st.tick = .ok a ∧
      st1.valueTableMap = st.valueTableMap ++ a.valueRowMap ∧
      (st1.rows = st.rows ++ [a.row] ∨ st1.rows = st.rows) := by
  unfold exportRow at h
  cases hg : generateObscureValue ctx st.valueTableMap fuel 0 row st.ctr st.tick with
  | error e => simp [hg] at h
  | ok a =>
    simp only [hg] at h
    refine ⟨a, rfl, ?_⟩
    by_cases hr : a.retry < maxRetry
    · simp only [hr, if_true, Except.ok.injEq] at h
      subst h
      exact ⟨rfl, Or.inl rfl⟩
    · simp only [hr, if_false, Except.ok.injEq] at h
      subst h
      exact ⟨rfl, Or.inr rfl⟩

/-- C11, evaluated at the failing input. In the table `id, code, tag` the second
row collides on `code` in each of its ten attempts and is dropped; the row loop
leaves `table.Rows` as it was but appends the keys of the tenth attempt, among
them `tag="u"_`, to `valueTableMap`, although that key is in the set before
neither and is the key of no kept row. The third row then collides with that
key in each of its attempts and is dropped as well; the table comes out the
same when the `range` over the two indexes visits them in the reverse order. -/
theorem dropped_row_keys_committed :
    exportRow (demoCtxTwo genReserved) maxRetry
        ⟨["code=\"a\"_".toList, "tag=\"t\"_".toList],
          [[.num "1".toList, .str "a".toList, .str "t".toList]], 2, 3⟩
        [.num "2".toList, .str "y".toList, .str "q".toList]
      = .ok ⟨["code=\"a\"_".toList, "tag=\"t\"_".toList, "code=\"a\"_".toList,
            "tag=\"u\"_".toList],
          [[.num "1".toList, .str "a".toList, .str "t".toList]], 22, 24⟩ ∧
    "tag=\"u\"_".toList ∉ ["code=\"a\"_".toList, "tag=\"t\"_".toList] ∧
    compositeKey [.num "1".toList, .str "a".toList, .str "t".toList] [("tag".toList, 2)] []
      = .ok "tag=\"t\"_".toList ∧
    exportTable (demoCtxTwo genReserved) 0 demoRowsTwo
      = .ok ⟨["code=\"a\"_".toList, "tag=\"t\"_".toList, "code=\"a\"_".toList,
            "tag=\"u\"_".toList, "code=\"c\"_".toList, "tag=\"u\"_".toList],
          [[.num "1".toList, .str "a".toList, .str "t".toList]], 42, 54⟩ ∧
    exportTable { demoCtxTwo genReserved with rangeIndexes := fun _ l => l.reverse } 0
        demoRowsTwo
      = .ok ⟨["tag=\"t\"_".toList, "code=\"a\"_".toList, "tag=\"u\"_".toList,
            "code=\"a\"_".toList, "tag=\"u\"_".toList, "code=\"c\"_".toList],
          [[.num "1".toList, .str "a".toList, .str "t".toList]], 42, 54⟩ :=
  ⟨by rfl, by decide, by rfl, by rfl, by rfl⟩

/-! ### `main` -/

/-- C9, evaluated at the failing input `--profile=dev --config=sample.json
--export=aw`: the value `aw` is none of `raw`, `csv`, `json`, yet it is a
substring of `raw|csv|json`, passes the validation and reaches `DbExport`. -/
theorem main_export_substring_accepted :
    main ⟨"aw".toList, false, false, false, "dev".toList, "sample.json".toList, []⟩
      = .callDbExport "dev".toList "sample.json".toList "aw".toList false ∧
    "aw".toList ∉ ["raw".toList, "csv".toList, "json".toList] :=
  ⟨by rfl, by decide⟩

/-! ### `generateNewValue`: the digit run -/

theorem digitChar_ne_zero (n : Nat) (h0 : 0 < n) (h10 : n < 10) : Nat.digitChar n ≠ '0' := by
  interval_cases n <;> decide

theorem toDigitsCore_head :
    ∀ (fuel n : Nat) (ds : List Char), 0 < n → n < fuel →
      ∃ c t, Nat.toDigitsCore 10 fuel n ds = c :: t ∧ c ≠ '0' := by
  intro fuel
  induction fuel with
  | zero => intro n ds _ h; omega
  | succ k ih =>
    intro n ds h0 hlt
    simp only [Nat.toDigitsCore]
    by_cases hq : n / 10 = 0
    · simp only [hq, if_true]
      have hn : n < 10 := by omega
      exact ⟨_, _, rfl, by rw [Nat.mod_eq_of_lt hn]; exact digitChar_ne_zero n h0 hn⟩
    · simp only [hq, if_false]
      exact ih (n / 10) _ (by omega) (by omega)

theorem fmtD_head (n : Nat) (h0 : 0 < n) : ∃ c t, fmtD n = c :: t ∧ c ≠ '0' :=
  toDigitsCore_head (n + 1) n [] h0 (by omega)

/-- The digit loop writes behind what the buffer already holds, and what it
writes does not start with `0`. -/
theorem writeNums_spec (src : Nat → Nat) :
    ∀ (xs : List Nat) (pos : Nat) (buf : Str),
      ∃ t, (writeNums src xs pos buf).1 = buf ++ t ∧ (t = [] ∨ ∃ c r, t = c :: r ∧ c ≠ '0') := by
  intro xs
  induction xs with
  | nil => intro pos buf; exact ⟨[], by simp [writeNums], Or.inl rfl⟩
  | cons x xs ih =>
    intro pos buf
    by_cases hx : x = 0
    · obtain ⟨c, r, hc, hne⟩ := fmtD_head (src pos % 8 + 1) (by omega)
      obtain ⟨t, ht, _⟩ := ih (pos + 1) (buf ++ fmtD (src pos % 8 + 1))
      refine ⟨fmtD (src pos % 8 + 1) ++ t, ?_, Or.inr ⟨c, r ++ t, by simp [hc], hne⟩⟩
      simp only [writeNums, hx, if_true, ht, List.append_assoc]
    · obtain ⟨c, r, hc, hne⟩ := fmtD_head x (by omega)
      obtain ⟨t, ht, _⟩ := ih pos (buf ++ fmtD x)
      refine ⟨fmtD x ++ t, ?_, Or.inr ⟨c, r ++ t, by simp [hc], hne⟩⟩
      simp only [writeNums, hx, if_false, ht, List.append_assoc]

theorem genDigits_head (src : Nat → Nat) (pos : Nat) (begIndex endIndex : Int) (str : Str)
    (pos1 : Nat) (h : genDigits src pos begIndex endIndex = .ok (str, pos1)) :
    str = [] ∨ ∃ c r, str = c :: r ∧ c ≠ '0' := by
  unfold genDigits at h
  cases hp : perm src pos begIndex with
  | error e => simp [hp] at h
  | ok p =>
    obtain ⟨nums, p1⟩ := p
    simp only [hp] at h
    by_cases he : endIndex = -1
    · simp only [he, ne_eq, not_true_eq_false, if_false, Except.ok.injEq] at h
      obtain ⟨t, ht, hh⟩ := writeNums_spec src nums p1 []
      rw [h] at ht
      simp only [List.nil_append] at ht
      exact ht ▸ hh
    · simp only [ne_eq, he, not_false_eq_true, if_true] at h
      cases hi : intn src p1 (wrap64 (endIndex - begIndex)) with
      | error e => simp [hi] at h
      | ok q =>
        obtain ⟨k, p2⟩ := q
        simp only [hi] at h
        cases hp2 : perm src p2 (wrap64 ((k : Int) + begIndex)) with
        | error e => simp [hp2] at h
        | ok q2 =>
          obtain ⟨nums2, p3⟩ := q2
          simp only [hp2, Except.ok.injEq] at h
          obtain ⟨t, ht, hh⟩ := writeNums_spec src nums2 p3 []
          rw [h] at ht
          simp only [List.nil_append] at ht
          exact ht ▸ hh

/-- C4. A digit run has no leading zero: for every range text of a `[0-9]{...}`
construct and every random source, a non-empty string generated for the
construct does not start with the character `0`. -/
theorem digit_run_no_leading_zero (env : GenEnv) (i pos : Nat) (g2 str : Str) (pos1 : Nat)
    (h : construct env i pos "0-9".toList g2 = .ok (.emit str, pos1)) (hne : str ≠ []) :
    str.head? ≠ some '0' := by
  have hgen : ∀ (p : Nat) (b e : Int) (p1 : Nat),
      genString env i p "0-9".toList b e = .ok (str, p1) → str.head? ≠ some '0' := by
    intro p b e p1 hg
    have hcls : ¬ (("0-9".toList).map Char.toLower = "a-z".toList) := by decide
    simp only [genString, hcls, if_false, if_true] at hg
    rcases genDigits_head _ _ _ _ _ _ hg with h0 | ⟨c, r, hc, hc0⟩
    · exact absurd h0 hne
    · rw [hc]
      simpa using hc0
  unfold construct at h
  simp only at h
  split at h
  · split at h
    · split at h
      · simp at h
      · split at h
        · simp at h
        · next s p1 hg =>
          simp only [Except.ok.injEq, Prod.mk.injEq, Step.emit.injEq] at h
          exact hgen _ _ _ _ (h.1 ▸ hg)
    · split at h
      · simp at h
      · next s p1 hg =>
        simp only [Except.ok.injEq, Prod.mk.injEq, Step.emit.injEq] at h
        exact hgen _ _ _ _ (h.1 ▸ hg)
  · simp at h

theorem digit_run_no_leading_zero_witness :
    construct (constEnv 3) 0 0 "0-9".toList "4".toList = .ok (.emit "2143".toList, 5) ∧
    ("2143".toList).head? ≠ some '0' :=
  ⟨by rfl, digit_run_no_leading_zero (constEnv 3) 0 0 "4".toList "2143".toList 5 (by rfl)
    (by decide)⟩

/-- C5, evaluated at the failing inputs `[0-9]{11}` and `[0-9]{11,12}` with a
source whose draws are all 0: the permutation of 0..10 holds the number 10,
written with two characters, so the run has 12 characters instead of 11. -/
theorem digit_run_eleven_has_twelve_chars :
    construct (constEnv 0) 0 0 "0-9".toList "11".toList
      = .ok (.emit "101123456789".toList, 12) ∧
    construct (constEnv 0) 0 0 "0-9".toList "11,12".toList
      = .ok (.emit "101123456789".toList, 24) ∧
    ("101123456789".toList).length = 12 ∧
    generateNewValue (constEnv 0) "[0-9]{11}".toList = .ok (some "101123456789".toList) :=
  ⟨by rfl, by rfl, by rfl, by rfl⟩

/-- C7, evaluated at the failing input ` [x]{1}[y]{0}` with a source whose
draws are all 0: the early return hands back the accumulation ` x` as it is,
leading blank included, where the final return would trim it. -/
theorem early_stop_returns_untrimmed :
    generateNewValue (constEnv 0) " [x]{1}[y]{0}".toList = .ok (some " x".toList) ∧
    trimSpace " x".toList = "x".toList ∧
    ((" x".toList).head?.map isSpace) = some true :=
  ⟨by rfl, by rfl, by rfl⟩

/-- C8, evaluated at the failing inputs: an upper bound below the lower bound,
a negative lower bound and a non-numeric upper bound of a `[0-9]` construct all
end in a Go panic (`Intn` with a non-positive argument, `make` with a negative
length), while a non-numeric lower bound is indeed skipped. -/
theorem malformed_digit_range_panics :
    generateNewValue (constEnv 0) "[0-9]{5,3}".toList = .error .invalidIntn ∧
    generateNewValue (constEnv 0) "[0-9]{-1}".toList = .error .negativeLen ∧
    generateNewValue (constEnv 0) "[0-9]{3,x}".toList = .error .invalidIntn ∧
    generateNewValue (constEnv 0) "[0-9]{x}".toList = .ok (some "[0-9]{x}".toList) :=
  ⟨by rfl, by rfl, by rfl, by rfl⟩

/-! ### `generateNewValue` against the spec's reading -/

theorem splitChar_not_mem (sep : Char) : ∀ (l : Str), sep ∉ l → splitChar sep l = [l] := by
  intro l
  induction l with
  | nil => intro _; rfl
  | cons c cs ih =>
    intro h
    have hc : ¬ c = sep := fun e => h (e ▸ List.mem_cons_self _ _)
    have hcs : sep ∉ cs := fun e => h (List.mem_cons_of_mem _ e)
    simp only [splitChar, hc, if_false, ih hcs]

theorem splitChar_append (sep : Char) (rest : Str) :
    ∀ (l : Str), sep ∉ l → splitChar sep (l ++ sep :: rest) = l :: splitChar sep rest := by
  intro l
  induction l with
  | nil => intro _; simp [splitChar]
  | cons c cs ih =>
    intro h
    have hc : ¬ c = sep := fun e => h (e ▸ List.mem_cons_self _ _)
    have hcs : sep ∉ cs := fun e => h (List.mem_cons_of_mem _ e)
    rw [List.cons_append, splitChar, if_neg hc, ih hcs]

theorem matchHere_some (s g1 g2 rest : Str) (h : matchHere s = some (g1, g2, rest)) :
    s = constructText g1 g2 ++ rest ∧ (∀ c ∈ g1, notBrace c = true) ∧
      (∀ c ∈ g2, notBrace c = true) := by
  unfold matchHere at h
  split at h
  · next t =>
    split at h
    · next u hl hd =>
      split at h
      · next r hr =>
        simp only [Option.some.injEq, Prod.mk.injEq] at h
        obtain ⟨h1, h2, h3⟩ := h
        have ht := List.takeWhile_append_dropWhile notBrace t
        have hu := List.takeWhile_append_dropWhile notBrace u
        have ha := List.dropLast_append_getLast? _ hl
        refine ⟨?_, ?_, ?_⟩
        · rw [hd] at ht
          rw [hr] at hu
          rw [← ht, ← ha, h1, ← hu, h2, h3]
          simp [constructText]
        · intro c hc
          rw [← h1] at hc
          exact List.mem_takeWhile_imp (List.dropLast_subset _ hc)
        · intro c hc
          rw [← h2] at hc
          exact List.mem_takeWhile_imp hc
      · cases h
    · cases h
  · cases h

theorem matchHere_constructText (g1 g2 rest : Str) (h1 : ∀ c ∈ g1, notBrace c = true)
    (h2 : ∀ c ∈ g2, notBrace c = true) :
    matchHere (constructText g1 g2 ++ rest) = some (g1, g2, rest) := by
  have ha : ∀ c ∈ g1 ++ [']'], notBrace c = true := by
    intro c hc
    rcases List.mem_append.mp hc with hc | hc
    · exact h1 c hc
    · rw [List.mem_singleton.mp hc]; decide
  have e1 : constructText g1 g2 ++ rest = '[' :: ((g1 ++ [']']) ++ '{' :: (g2 ++ '}' :: rest)) := by
    simp [constructText]
  have t1 : ((g1 ++ [']']) ++ '{' :: (g2 ++ '}' :: rest)).takeWhile notBrace = g1 ++ [']'] := by
    rw [List.takeWhile_append_of_pos ha]
    simp [List.takeWhile_cons, notBrace]
  have d1 : ((g1 ++ [']']) ++ '{' :: (g2 ++ '}' :: rest)).dropWhile notBrace
      = '{' :: (g2 ++ '}' :: rest) := by
    rw [List.dropWhile_append_of_pos ha]
    simp [List.dropWhile_cons, notBrace]
  have t2 : (g2 ++ '}' :: rest).takeWhile notBrace = g2 := by
    rw [List.takeWhile_append_of_pos h2]
    simp [List.takeWhile_cons, notBrace]
  have d2 : (g2 ++ '}' :: rest).dropWhile notBrace = '}' :: rest := by
    rw [List.dropWhile_append_of_pos h2]
    simp [List.dropWhile_cons, notBrace]
  rw [e1]
  simp only [matchHere, t1, d1, t2, d2, List.getLast?_concat, List.dropLast_concat]

theorem findAll_constructText (g1 g2 : Str) (h1 : ∀ c ∈ g1, notBrace c = true)
    (h2 : ∀ c ∈ g2, notBrace c = true) :
    findAll (constructText g1 g2) = [⟨0, (constructText g1 g2).length, g1, g2⟩] := by
  have hm := matchHere_constructText g1 g2 [] h1 h2
  rw [List.append_nil] at hm
  unfold findAll
  have hc : constructText g1 g2 = '[' :: (g1 ++ ']' :: '{' :: (g2 ++ ['}'])) := rfl
  rw [hc] at hm ⊢
  simp only [findAllFrom, hm]
  cases h : (g1 ++ ']' :: '{' :: (g2 ++ ['}'])).length + 1 <;> simp [findAllFrom]

theorem atoiDigits_ok_range (neg : Bool) (ds : Str) (h : (atoiDigits neg ds).2 = true) :
    -(2 ^ 63 : Int) ≤ (atoiDigits neg ds).1 ∧ (atoiDigits neg ds).1 ≤ 2 ^ 63 - 1 := by
  unfold atoiDigits at h ⊢
  split_ifs at h ⊢ <;> simp at h ⊢ <;> omega

theorem atoi_ok_range (s : Str) (h : (atoi s).2 = true) :
    -(2 ^ 63 : Int) ≤ (atoi s).1 ∧ (atoi s).1 ≤ 2 ^ 63 - 1 := by
  unfold atoi at h ⊢
  split at h <;> exact atoiDigits_ok_range _ _ h

theorem wrap64_id (x : Int) (h1 : -(2 ^ 63 : Int) ≤ x) (h2 : x ≤ 2 ^ 63 - 1) : wrap64 x = x := by
  unfold wrap64
  rw [Int.emod_eq_of_lt (by omega) (by omega)]
  omega

theorem genDigits_ok (src : Nat → Nat) (pos : Nat) (b e : Int) (hb : 1 ≤ b)
    (he : e = -1 ∨ (b < e ∧ e ≤ 2 ^ 63 - 1)) : ∃ r, genDigits src pos b e = .ok r := by
  unfold genDigits
  have hp : ¬ b < 0 := by omega
  simp only [perm, hp, if_false]
  rcases he with he | ⟨hlt, hmax⟩
  · simp [he]
  · have hne : e ≠ -1 := by omega
    have hw : wrap64 (e - b) = e - b := wrap64_id _ (by omega) (by omega)
    have hpos : ¬ e - b ≤ 0 := by omega
    simp only [ne_eq, hne, not_false_eq_true, if_true, intn, hw, hpos, if_false]
    have hk : ∀ n : Nat, ((n % (e - b).toNat : Nat) : Int) < e - b := by
      intro n
      have h1 : 0 < (e - b).toNat := by omega
      have h2 := Nat.mod_lt n h1
      omega
    have hw2 : ∀ n : Nat, wrap64 (((n % (e - b).toNat : Nat) : Int) + b)
        = ((n % (e - b).toNat : Nat) : Int) + b := by
      intro n
      have := hk n
      exact wrap64_id _ (by omega) (by omega)
    have hp2 : ∀ n : Nat, ¬ (((n % (e - b).toNat : Nat) : Int) + b < 0) := by
      intro n; omega
    simp only [hw2, hp2, if_false]
    exact ⟨_, rfl⟩

theorem braceFree_notBrace (s : Str) (h : BraceFree s) : ∀ c ∈ s, notBrace c = true := by
  intro c hc
  have h1 : c ≠ '{' := fun e => h.1 (e ▸ hc)
  have h2 : c ≠ '}' := fun e => h.2 (e ▸ hc)
  simp [notBrace, h1, h2]

theorem notBrace_braceFree (s : Str) (h : ∀ c ∈ s, notBrace c = true) : BraceFree s := by
  constructor
  · intro hm
    have := h _ hm
    simp [notBrace] at this
  · intro hm
    have := h _ hm
    simp [notBrace] at this

/-- Where the code finds a match, a construct starts; where none starts, the
code finds no match. -/
theorem matchHere_none (s : Str) (h : ¬ StartsWithConstruct s) : matchHere s = none := by
  cases hm : matchHere s with
  | none => rfl
  | some r =>
    obtain ⟨g1, g2, rest⟩ := r
    obtain ⟨hs, hb1, hb2⟩ := matchHere_some _ _ _ _ hm
    exact absurd ⟨g1, g2, rest, notBrace_braceFree _ hb1, notBrace_braceFree _ hb2, hs⟩ h

/-- The computed reading walks a literal stretch character by character. -/
theorem segmentsFrom_literal (after : Str) :
    ∀ (lit lit0 : Str) (fuel : Nat),
      (∀ a b, lit = a ++ b → b ≠ [] → ¬ StartsWithConstruct (b ++ after)) →
      segmentsFrom (fuel + lit.length) (lit ++ after) lit0
        = segmentsFrom fuel after (lit0 ++ lit) := by
  intro lit
  induction lit with
  | nil => intro lit0 fuel _; simp
  | cons c cs ih =>
    intro lit0 fuel h
    have hm : matchHere (c :: (cs ++ after)) = none :=
      matchHere_none _ (h [] (c :: cs) rfl (List.cons_ne_nil _ _))
    have hf : fuel + (c :: cs).length = (fuel + cs.length) + 1 := rfl
    rw [hf, List.cons_append]
    simp only [segmentsFrom, hm]
    rw [ih (lit0 ++ [c]) fuel (fun a b hab hb => h (c :: a) b (by rw [hab]; rfl) hb)]
    simp

/-- The computed reading of a pattern is the reading the pattern has. -/
theorem segmentsFrom_reading (s : Str) (segs : List (Str × Str × Str)) (t : Str)
    (h : Reading s segs t) : ∀ fuel, s.length < fuel → segmentsFrom fuel s [] = (segs, t) := by
  induction h with
  | done t hlit =>
    intro fuel hf
    have hw := segmentsFrom_literal [] t [] (fuel - t.length)
      (fun a b hab _ => by rw [List.append_nil]; exact hlit a b hab)
    have he : fuel - t.length + t.length = fuel := by omega
    rw [he, List.append_nil] at hw
    rw [hw]
    cases hk : fuel - t.length with
    | zero => simp [segmentsFrom]
    | succ k => simp [segmentsFrom]
  | step lit g1 g2 rest segs t h1 h2 hlit _ ih =>
    intro fuel hf
    have hlen : (lit ++ (constructText g1 g2 ++ rest)).length
        = lit.length + (g1.length + g2.length + 4 + rest.length) := by
      simp only [constructText, List.length_append, List.length_cons, List.length_nil]
      omega
    rw [hlen] at hf
    have hw := segmentsFrom_literal (constructText g1 g2 ++ rest) lit [] (fuel - lit.length) hlit
    have he : fuel - lit.length + lit.length = fuel := by omega
    rw [he] at hw
    rw [hw]
    obtain ⟨k, hk⟩ : ∃ k, fuel - lit.length = k + 1 := ⟨fuel - lit.length - 1, by omega⟩
    have hm := matchHere_constructText g1 g2 rest (braceFree_notBrace _ h1)
      (braceFree_notBrace _ h2)
    have hc : constructText g1 g2 ++ rest = '[' :: (g1 ++ ']' :: '{' :: (g2 ++ ['}']) ++ rest) :=
      rfl
    rw [hc] at hm ⊢
    rw [hk]
    simp only [segmentsFrom, hm, List.nil_append]
    rw [ih k (by omega)]

theorem digitsValue_ofDigits (s : Str) :
    digitsValue s = Nat.ofDigits 10 ((s.map fun c => c.toNat - 48).reverse) := by
  induction s using List.reverseRecOn with
  | nil => rfl
  | append_singleton s c ih =>
    unfold digitsValue at ih ⊢
    rw [List.foldl_append, List.foldl_cons, List.foldl_nil, ih]
    simp [Nat.ofDigits_cons]
    ring

/-- The function `Atoi` reads a decimal numeral that fits an `int` as the number it writes. -/
theorem atoi_numeral (s : Str) (n : Nat) (h : numeralValue s = some n) (hn : n < 2 ^ 63) :
    atoi s = ((n : Int), true) := by
  unfold numeralValue at h
  split at h
  · next hs =>
    obtain ⟨hne, hall⟩ := hs
    simp only [Option.some.injEq] at h
    have hv : digitsValue s = n := by rw [digitsValue_ofDigits, h]
    have hd : atoiDigits false s = ((n : Int), true) := by
      unfold atoiDigits
      have h1 : ¬ (s = [] ∨ s.all Char.isDigit = false) := by
        simp only [hall, not_or]
        exact ⟨hne, by simp⟩
      have h2 : ¬ (2 ^ 63 ≤ digitsValue s) := by omega
      rw [if_neg h1]
      simp only [Bool.false_eq_true, if_false, hv]
      rw [if_neg (by omega)]
    unfold atoi
    split
    · next ds =>
      have := List.all_eq_true.mp hall '-' (List.mem_cons_self _ _)
      simp at this
    · next ds =>
      have := List.all_eq_true.mp hall '+' (List.mem_cons_self _ _)
      simp at this
    · exact hd
  · cases h

theorem numeral_no_comma (s : Str) (n : Nat) (h : numeralValue s = some n) : ',' ∉ s := by
  unfold numeralValue at h
  split at h
  · next hs =>
    intro hm
    have := List.all_eq_true.mp hs.2 ',' hm
    simp at this
  · cases h

/-- A construct whose range reads as bounds, and whose library call returns,
generates a string. -/
theorem construct_of_range (env : GenEnv) (i pos : Nat) (g1 g2 : Str) (n : Nat) (m : Option Nat)
    (hr : IsRange g2 n m) (hl : LibraryReturns env i g1 n m) :
    ∃ str pos1, construct env i pos g1 g2 = .ok (.emit str, pos1) := by
  have hparse : ∃ (e : Int), (atoi ((splitChar ',' g2).headD [])) = ((n : Int), true) ∧
      (if (splitChar ',' g2).length = 2 then (atoi ((splitChar ',' g2).getD 1 [])).1 else -1) = e ∧
      1 ≤ n ∧ (e = -1 ∨ ((n : Int) < e ∧ e ≤ 2 ^ 63 - 1)) ∧
      (g1.map Char.toLower = "a-z".toList →
        ((if e = -1 then env.fakeWordByLength i n else env.fakeWord i n e).isSome = true)) := by
    cases m with
    | none =>
      obtain ⟨hv, h1, h2⟩ := hr
      have hs := splitChar_not_mem ',' g2 (numeral_no_comma _ _ hv)
      refine ⟨-1, ?_, ?_, h1, Or.inl rfl, ?_⟩
      · rw [hs]; exact atoi_numeral _ _ hv h2
      · rw [hs]; simp
      · intro hg; simpa using hl hg
    | some m =>
      obtain ⟨a, b, hg2, ha, hb, h1, h2, h3⟩ := hr
      have hs : splitChar ',' g2 = [a, b] := by
        rw [hg2, splitChar_append ',' b a (numeral_no_comma _ _ ha),
          splitChar_not_mem ',' b (numeral_no_comma _ _ hb)]
      have hm63 : n < 2 ^ 63 := by omega
      refine ⟨(m : Int), ?_, ?_, h1, Or.inr ⟨by omega, by omega⟩, ?_⟩
      · rw [hs]; exact atoi_numeral _ _ ha hm63
      · rw [hs]; simp [atoi_numeral _ _ hb h3]
      · intro hg
        have hne : ¬ ((m : Int) = -1) := by omega
        simpa [hne] using hl hg
  obtain ⟨e, hbeg, hend, h1, he, hlib⟩ := hparse
  have hgen : ∀ p, ∃ r, genString env i p g1 (n : Int) e = .ok r := by
    intro p
    unfold genString
    split
    · next hg =>
      have := hlib hg
      unfold genWord
      cases hw : (if e = -1 then env.fakeWordByLength i n else env.fakeWord i n e) with
      | none => rw [hw] at this; cases this
      | some w =>
        simp only
        split_ifs <;> exact ⟨_, rfl⟩
    · split
      · exact genDigits_ok _ _ _ _ (by omega) he
      · exact ⟨_, rfl⟩
  unfold construct
  simp only [hbeg, hend, if_true]
  have hne : ¬ ((n : Int) = 0) := by omega
  simp only [hne, if_false]
  obtain ⟨⟨str, p1⟩, hr⟩ := hgen pos
  exact ⟨str, p1, by simp only [hr]⟩

theorem slice_mid (a b c : Str) : slice (a ++ b ++ c) a.length (a.length + b.length) = .ok b := by
  unfold slice
  have h : a.length ≤ a.length + b.length ∧ a.length + b.length ≤ (a ++ b ++ c).length := by
    simp only [List.length_append]; omega
  rw [if_pos h, List.append_assoc, List.drop_left, Nat.add_sub_cancel_left, List.take_left]

theorem slice_suffix (a b : Str) : slice (a ++ b) a.length (a ++ b).length = .ok b := by
  have := slice_mid a b []
  simpa using this

/-- The code and the computed reading walk a pattern in step, as long as every
construct generates a string. -/
theorem outerLoop_segments (env : GenEnv) (pattern : Str) :
    ∀ (fuel : Nat) (s pre0 lit part : Str) (i : Nat), pattern = pre0 ++ lit ++ s →
      (∀ j seg, (segmentsFrom fuel s lit).1[j]? = some seg →
        ∃ str p1, construct env (i + j) 0 seg.2.1 seg.2.2 = .ok (.emit str, p1)) →
      ∃ t L, specConcat env i (segmentsFrom fuel s lit).1 = some t ∧
        outerLoop env pattern (findAllFrom fuel (pre0 ++ lit).length s) i part pre0.length
          = .ok (.next (part ++ t) L) ∧
        slice pattern L pattern.length = .ok (segmentsFrom fuel s lit).2 := by
  intro fuel
  induction fuel with
  | zero =>
    intro s pre0 lit part i hpat _
    refine ⟨[], pre0.length, rfl, by simp [findAllFrom, outerLoop], ?_⟩
    simp only [segmentsFrom]
    rw [hpat, List.append_assoc]
    exact slice_suffix pre0 (lit ++ s)
  | succ n ih =>
    intro s pre0 lit part i hpat hwf
    cases s with
    | nil =>
      refine ⟨[], pre0.length, rfl, by simp [findAllFrom, outerLoop], ?_⟩
      simp only [segmentsFrom]
      rw [hpat, List.append_nil]
      exact slice_suffix pre0 lit
    | cons c cs =>
      cases hm : matchHere (c :: cs) with
      | none =>
        simp only [segmentsFrom, hm, findAllFrom] at hwf ⊢
        have hpat2 : pattern = pre0 ++ (lit ++ [c]) ++ cs := by simp [hpat]
        obtain ⟨t, L, h1, h2, h3⟩ := ih cs pre0 (lit ++ [c]) part i hpat2 hwf
        refine ⟨t, L, h1, ?_, h3⟩
        have hl : (pre0 ++ (lit ++ [c])).length = (pre0 ++ lit).length + 1 := by simp; omega
        rw [hl] at h2
        exact h2
      | some r =>
        obtain ⟨g1, g2, rest⟩ := r
        obtain ⟨hs, hb1, hb2⟩ := matchHere_some _ _ _ _ hm
        simp only [segmentsFrom, hm, findAllFrom] at hwf ⊢
        obtain ⟨str, p1, hcon⟩ := hwf 0 (lit, g1, g2) (by simp)
        rw [Nat.add_zero] at hcon
        simp only at hcon
        have hlen : (c :: cs).length - rest.length = (constructText g1 g2).length := by
          rw [hs]; simp
        have hpat2 : pattern = (pre0 ++ lit ++ constructText g1 g2) ++ [] ++ rest := by
          rw [hpat, hs]; simp
        obtain ⟨t, L, h1, h2, h3⟩ := ih rest (pre0 ++ lit ++ constructText g1 g2) []
          (part ++ (lit ++ str)) (i + 1) hpat2
          (fun j seg hseg => by
            have := hwf (j + 1) seg (by simpa using hseg)
            rwa [show i + (j + 1) = i + 1 + j by omega] at this)
        refine ⟨lit ++ str ++ t, L, ?_, ?_, h3⟩
        · simp only [specConcat, hcon, h1, Option.map_some']
        · have hsl1 : slice pattern (pre0 ++ lit).length
              ((pre0 ++ lit).length + (constructText g1 g2).length)
              = .ok (constructText g1 g2) := by
            rw [hpat, hs, ← List.append_assoc]
            exact slice_mid (pre0 ++ lit) (constructText g1 g2) rest
          have hsl2 : slice pattern pre0.length (pre0 ++ lit).length = .ok lit := by
            rw [hpat, List.length_append]
            exact slice_mid pre0 lit (c :: cs)
          rw [hlen]
          simp only [outerLoop, hsl1, findAll_constructText g1 g2 hb1 hb2, innerLoop, hcon, hsl2]
          have hl : (pre0 ++ lit ++ constructText g1 g2 ++ []).length
              = (pre0 ++ lit).length + (constructText g1 g2).length := by
            simp only [List.length_append, List.length_nil]; omega
          rw [hl] at h2
          have hl2 : (pre0 ++ lit ++ constructText g1 g2).length
              = (pre0 ++ lit).length + (constructText g1 g2).length := by
            simp only [List.length_append]
          rw [hl2] at h2
          rw [h2]
          simp

theorem isSpace_iff (c : Char) : isSpace c = true ↔ c ∈ whitespaceChars := by
  constructor
  · intro h
    unfold isSpace at h
    simp only [Bool.or_eq_true, Bool.and_eq_true, decide_eq_true_eq] at h
    have hc : c = Char.ofNat c.toNat := (Char.ofNat_toNat c).symm
    have hn : c.toNat ∈ [0x09, 0x0A, 0x0B, 0x0C, 0x0D, 0x20, 0x85, 0xA0, 0x1680,
        0x2000, 0x2001, 0x2002, 0x2003, 0x2004, 0x2005, 0x2006, 0x2007, 0x2008, 0x2009,
        0x200A, 0x2028, 0x2029, 0x202F, 0x205F, 0x3000] := by
      simp only [List.mem_cons, List.mem_singleton, List.not_mem_nil, or_false]
      omega
    rw [hc]
    simp only [List.mem_cons, List.mem_singleton, List.not_mem_nil, or_false] at hn
    unfold whitespaceChars
    rcases hn with h | h | h | h | h | h | h | h | h | h | h | h | h | h | h | h | h | h | h | h |
      h | h | h | h | h <;> rw [h] <;> simp
  · intro h
    unfold whitespaceChars at h
    simp only [List.mem_cons, List.mem_singleton, List.not_mem_nil, or_false] at h
    rcases h with h | h | h | h | h | h | h | h | h | h | h | h | h | h | h | h | h | h | h | h |
      h | h | h | h | h <;> rw [h] <;> decide

theorem dropWhile_all (p : Char → Bool) : ∀ (l x : Str), (∀ c ∈ l, p c = true) →
    (l ++ x).dropWhile p = x.dropWhile p := by
  intro l
  induction l with
  | nil => intro x _; rfl
  | cons c cs ih =>
    intro x h
    rw [List.cons_append, List.dropWhile_cons, if_pos (h c (List.mem_cons_self _ _))]
    exact ih x (fun d hd => h d (List.mem_cons_of_mem _ hd))

theorem dropWhile_concat_neg (p : Char → Bool) (x : Char) (hx : p x = false) :
    ∀ (l : Str), (l ++ [x]).dropWhile p = l.dropWhile p ++ [x] := by
  intro l
  induction l with
  | nil => simp [List.dropWhile_cons, hx]
  | cons c cs ih =>
    rw [List.cons_append, List.dropWhile_cons, List.dropWhile_cons]
    split
    · exact ih
    · rfl

theorem trimSpace_head (s : Str) (c : Char) (h : (trimSpace s).head? = some c) :
    isSpace c = false := by
  unfold trimSpace at h
  cases hd : s.dropWhile isSpace with
  | nil => rw [hd] at h; simp at h
  | cons x d =>
    have hx : isSpace x = false := by
      have := List.head?_dropWhile_not isSpace s
      rw [hd] at this
      simpa using this
    rw [hd, List.reverse_cons, dropWhile_concat_neg isSpace x hx, List.reverse_append] at h
    simp only [List.reverse_cons, List.reverse_nil, List.nil_append, List.singleton_append,
      List.head?_cons, Option.some.injEq] at h
    exact h ▸ hx

theorem trimSpace_getLast (s : Str) (c : Char) (h : (trimSpace s).getLast? = some c) :
    isSpace c = false := by
  unfold trimSpace at h
  rw [List.getLast?_reverse] at h
  have := List.head?_dropWhile_not isSpace (s.dropWhile isSpace).reverse
  rw [h] at this
  simpa using this

/-- The function `strings.TrimSpace` trims the surrounding whitespace. -/
theorem isTrimOf_trimSpace (s : Str) : IsTrimOf s (trimSpace s) := by
  refine ⟨s.takeWhile isSpace, ((s.dropWhile isSpace).reverse.takeWhile isSpace).reverse,
    ?_, ?_, ?_, ?_, ?_⟩
  · unfold trimSpace
    have h1 := List.takeWhile_append_dropWhile isSpace s
    have h2 := List.takeWhile_append_dropWhile isSpace (s.dropWhile isSpace).reverse
    have h3 : ((s.dropWhile isSpace).reverse.dropWhile isSpace).reverse ++
        ((s.dropWhile isSpace).reverse.takeWhile isSpace).reverse = s.dropWhile isSpace := by
      rw [← List.reverse_append, h2, List.reverse_reverse]
    rw [List.append_assoc, h3, h1]
  · intro c hc
    exact (isSpace_iff c).mp (List.mem_takeWhile_imp hc)
  · intro c hc
    rw [List.mem_reverse] at hc
    exact (isSpace_iff c).mp (List.mem_takeWhile_imp hc)
  · intro c hc hw
    have := trimSpace_head s c hc
    rw [(isSpace_iff c).mpr hw] at this
    cases this
  · intro c hc hw
    have := trimSpace_getLast s c hc
    rw [(isSpace_iff c).mpr hw] at this
    cases this

/-- The trimmed text is determined: whatever trims a text is what `strings.TrimSpace` returns. -/
theorem isTrimOf_unique (s v : Str) (h : IsTrimOf s v) : v = trimSpace s := by
  obtain ⟨l, r, hs, hl, hr, hh, ht⟩ := h
  have hl2 : ∀ c ∈ l, isSpace c = true := fun c hc => (isSpace_iff c).mpr (hl c hc)
  have hr2 : ∀ c ∈ r.reverse, isSpace c = true :=
    fun c hc => (isSpace_iff c).mpr (hr c (List.mem_reverse.mp hc))
  unfold trimSpace
  rw [hs, List.append_assoc, dropWhile_all isSpace l _ hl2]
  cases v with
  | nil =>
    have hall : ∀ c ∈ r, isSpace c = true := fun c hc => (isSpace_iff c).mpr (hr c hc)
    have : ([] ++ r).dropWhile isSpace = [] := by
      rw [List.nil_append, List.dropWhile_eq_nil_iff]
      exact hall
    rw [this]
    rfl
  | cons x v =>
    have hx : isSpace x = false := by
      have := hh x rfl
      cases h : isSpace x
      · rfl
      · exact absurd ((isSpace_iff x).mp h) this
    rw [List.cons_append, List.dropWhile_cons, hx]
    simp only [Bool.false_eq_true, if_false]
    rw [← List.cons_append, List.reverse_append, dropWhile_all isSpace _ _ hr2]
    have hlast : ∀ y, (x :: v).reverse.head? = some y → isSpace y = false := by
      intro y hy
      rw [List.head?_reverse] at hy
      have := ht y hy
      cases h : isSpace y
      · rfl
      · exact absurd ((isSpace_iff y).mp h) this
    cases hrev : (x :: v).reverse with
    | nil => simp at hrev
    | cons y w =>
      rw [hrev] at hlast
      have hy := hlast y rfl
      rw [List.dropWhile_cons, hy]
      simp only [Bool.false_eq_true, if_false]
      rw [← hrev, List.reverse_reverse]

theorem not_startsWithConstruct_nil : ¬ StartsWithConstruct [] := by
  rintro ⟨g1, g2, rest, _, _, h⟩
  simp [constructText] at h

theorem startsWithConstruct_head (c : Char) (s : Str) (h : StartsWithConstruct (c :: s)) :
    c = '[' := by
  obtain ⟨g1, g2, rest, _, _, h⟩ := h
  simp only [constructText, List.cons_append, List.cons.injEq] at h
  exact h.1

/-- No construct starts inside a stretch without an opening bracket. -/
theorem literal_of_no_bracket (lit after : Str) (h : '[' ∉ lit) :
    ∀ a b, lit = a ++ b → b ≠ [] → ¬ StartsWithConstruct (b ++ after) := by
  intro a b hab hb hs
  cases b with
  | nil => exact hb rfl
  | cons c b =>
    have hc := startsWithConstruct_head c (b ++ after) hs
    apply h
    rw [hab, hc]
    simp

/-- No construct starts in a trailing text without an opening bracket. -/
theorem trailing_of_no_bracket (t : Str) (h : '[' ∉ t) :
    ∀ a b, t = a ++ b → ¬ StartsWithConstruct b := by
  intro a b hab hs
  cases b with
  | nil => exact not_startsWithConstruct_nil hs
  | cons c b =>
    have hc := startsWithConstruct_head c b hs
    apply h
    rw [hab, hc]
    simp

/-- The computed reading is a reading: every pattern has one. -/
theorem reading_segmentsFrom :
    ∀ (fuel : Nat) (s lit : Str), s.length < fuel →
      (∀ a b, lit = a ++ b → b ≠ [] → ¬ StartsWithConstruct (b ++ s)) →
      Reading (lit ++ s) (segmentsFrom fuel s lit).1 (segmentsFrom fuel s lit).2 := by
  intro fuel
  induction fuel with
  | zero => intro s lit h; omega
  | succ n ih =>
    intro s lit hlen hlit
    cases s with
    | nil =>
      simp only [segmentsFrom, List.append_nil]
      refine Reading.done lit ?_
      intro a b hab hs
      cases b with
      | nil => exact not_startsWithConstruct_nil hs
      | cons c b =>
        have := hlit a (c :: b) hab (List.cons_ne_nil _ _)
        rw [List.append_nil] at this
        exact this hs
    | cons c cs =>
      cases hm : matchHere (c :: cs) with
      | none =>
        simp only [segmentsFrom, hm]
        have hns : ¬ StartsWithConstruct (c :: cs) := by
          rintro ⟨g1, g2, rest, h1, h2, he⟩
          rw [he, matchHere_constructText g1 g2 rest (braceFree_notBrace _ h1)
            (braceFree_notBrace _ h2)] at hm
          cases hm
        have := ih cs (lit ++ [c]) (by simp at hlen; omega) (by
          intro a b hab hb
          rcases List.eq_nil_or_concat b with hb0 | ⟨b1, x, hbx⟩
          · exact absurd hb0 hb
          · rw [List.concat_eq_append] at hbx
            rw [hbx, ← List.append_assoc] at hab
            obtain ⟨h1, h2⟩ := List.append_inj' hab rfl
            simp only [List.cons.injEq, and_true] at h2
            rw [hbx, ← h2, List.append_assoc, List.singleton_append]
            cases b1 with
            | nil => exact hns
            | cons y b1 => exact hlit a (y :: b1) h1 (List.cons_ne_nil _ _))
        rwa [List.append_assoc, List.singleton_append] at this
      | some r =>
        obtain ⟨g1, g2, rest⟩ := r
        obtain ⟨hs, hb1, hb2⟩ := matchHere_some _ _ _ _ hm
        simp only [segmentsFrom, hm]
        have hrl : rest.length < n := by
          have : (c :: cs).length = (constructText g1 g2 ++ rest).length := by rw [hs]
          simp only [constructText, List.length_append, List.length_cons, List.length_nil] at this
          simp only [List.length_cons] at hlen
          omega
        have hr := ih rest [] hrl (fun a b hab hb => by
          have : b = [] := by
            have := congrArg List.length hab
            simp at this
            exact List.length_eq_zero.mp (by omega)
          exact absurd this hb)
        rw [List.nil_append] at hr
        rw [hs]
        rw [hs] at hlit
        exact Reading.step lit g1 g2 rest _ _ (notBrace_braceFree _ hb1)
          (notBrace_braceFree _ hb2) hlit hr

/-- Every pattern has a reading, the computed one. -/
theorem reading_segments (pattern : Str) :
    Reading pattern (segments pattern).1 (segments pattern).2 := by
  have := reading_segmentsFrom (pattern.length + 1) pattern [] (by omega)
    (fun a b hab hb => by
      have : b = [] := by
        have := congrArg List.length hab
        simp at this
        exact List.length_eq_zero.mp (by omega)
      exact absurd this hb)
  rwa [List.nil_append] at this

/-- C6. For every pattern that reads as literal stretches and bracket-brace
constructs each of which has a well-formed range with a non-zero lower bound,
and every random source and word library whose calls for these constructs
return, `generateNewValue` returns a value `v` that is the whitespace-trimmed
concatenation, in pattern order, of each literal stretch and each construct's
generated string, ending with the literal text after the last construct; a
pattern without a construct returns the pattern itself, trimmed. Trimming is
stated by the list of whitespace characters, not by the code's function. -/
theorem generateNewValue_refines_spec (env : GenEnv) (pattern : Str)
    (segs : List (Str × Str × Str)) (trailing : Str)
    (hread : Reading pattern segs trailing)
    (hsegs : ∀ i seg, segs[i]? = some seg →
      ∃ n m, IsRange seg.2.2 n m ∧ LibraryReturns env i seg.2.1 n m) :
    ∃ t v, specConcat env 0 segs = some t ∧ generateNewValue env pattern = .ok (some v) ∧
      IsTrimOf (t ++ trailing) v ∧ (segs = [] → IsTrimOf pattern v) := by
  have hseg := segmentsFrom_reading pattern segs trailing hread (pattern.length + 1) (by omega)
  obtain ⟨t, L, h1, h2, h3⟩ :=
    outerLoop_segments env pattern (pattern.length + 1) pattern [] [] [] 0 (by simp) (by
      intro j seg hj
      rw [hseg] at hj
      obtain ⟨n, m, hr, hl⟩ := hsegs j seg hj
      rw [Nat.zero_add]
      exact construct_of_range env j 0 _ _ n m hr hl)
  rw [hseg] at h1 h3
  have h2s : outerLoop env pattern (findAll pattern) 0 [] 0 = .ok (.next t L) := by
    simpa [findAll] using h2
  refine ⟨t, trimSpace (t ++ trailing), h1, ?_, isTrimOf_trimSpace _, ?_⟩
  · simp only [generateNewValue, h2s, h3]
  · intro hnil
    subst hnil
    simp only [specConcat, Option.some.injEq] at h1
    cases hread
    rw [← h1, List.nil_append]
    exact isTrimOf_trimSpace _

theorem generateNewValue_refines_spec_witness :
    (∃ t v, specConcat (constEnv 0) 0 [(" ID-".toList, "x".toList, "1,3".toList)] = some t ∧
      generateNewValue (constEnv 0) " ID-[x]{1,3} - end\t".toList = .ok (some v) ∧
      IsTrimOf (t ++ " - end\t".toList) v ∧
      ([(" ID-".toList, "x".toList, "1,3".toList)] = [] →
        IsTrimOf " ID-[x]{1,3} - end\t".toList v)) ∧
    generateNewValue (constEnv 0) " ID-[x]{1,3} - end\t".toList
      = .ok (some "ID-xxx - end".toList) ∧
    generateNewValue (constEnv 0) "ID-[x]{1,3}-end".toList = .ok (some "ID-xxx-end".toList) :=
  ⟨generateNewValue_refines_spec (constEnv 0) " ID-[x]{1,3} - end\t".toList
      [(" ID-".toList, "x".toList, "1,3".toList)] " - end\t".toList
      (Reading.step " ID-".toList "x".toList "1,3".toList " - end\t".toList [] _
        ⟨by decide, by decide⟩ ⟨by decide, by decide⟩ (literal_of_no_bracket _ _ (by decide))
        (Reading.done _ (trailing_of_no_bracket _ (by decide))))
      (fun i seg h => by
        cases i with
        | zero =>
          simp only [List.getElem?_cons_zero, Option.some.injEq] at h
          subst h
          exact ⟨1, some 3, ⟨"1".toList, "3".toList, rfl, by decide, by decide, by decide,
            by decide, by decide⟩, fun hg => absurd hg (by decide)⟩
        | succ k => simp at h),
    by rfl, by rfl⟩

/-! ### The CSV member round trip -/

theorem hexVal_hexDigit (m : Nat) (h : m < 16) : hexVal (hexDigit m) = some m := by
  interval_cases m <;> rfl

theorem hexDigit_not_special (m : Nat) :
    hexDigit m ≠ '\n' ∧ hexDigit m ≠ ',' := by
  by_cases h : m < 16
  · interval_cases m <;> exact ⟨by decide, by decide⟩
  · have : hexDigit m = '0' := by
      unfold hexDigit
      rw [List.getD_eq_default]
      simp; omega
    rw [this]; exact ⟨by decide, by decide⟩

theorem char_eq_of_toNat (c : Char) (n : Nat) (h : c.toNat = n) : c = Char.ofNat n := by
  rw [← h, Char.ofNat_toNat]

/-- Reading back one escaped character. -/
theorem parseStrFrom_escapeChar (c : Char) (x : Str) :
    parseStrFrom 0 (escapeChar c ++ x) = pushChar c (parseStrFrom 0 x) := by
  unfold escapeChar
  split_ifs with h1 h2 h3 h4 h7 h8 h5 h6
  · rcases h1 with rfl | rfl <;> (rw [parseStrFrom.eq_def]; simp [unescape])
  · subst h2; rw [parseStrFrom.eq_def]; simp [unescape]
  · subst h3; rw [parseStrFrom.eq_def]; simp [unescape]
  · subst h4; rw [parseStrFrom.eq_def]; simp [unescape]
  · rw [char_eq_of_toNat c _ h7, parseStrFrom.eq_def]; simp [unescape]
  · rw [char_eq_of_toNat c _ h8, parseStrFrom.eq_def]; simp [unescape]
  · have hn : c.toNat < 256 := by
      rcases h5 with h | rfl | rfl | rfl
      · omega
      · decide
      · decide
      · decide
    have hsur : ¬ (0xD800 ≤ c.toNat ∧ c.toNat < 0xE000) := by omega
    have e1 := hexVal_hexDigit (c.toNat / 16) (by omega)
    have e2 := hexVal_hexDigit (c.toNat % 16) (by omega)
    have e0 : hexVal '0' = some 0 := rfl
    have hv : hex4 '0' '0' (hexDigit (c.toNat / 16)) (hexDigit (c.toNat % 16)) = some c.toNat := by
      simp only [hex4, e0, e1, e2, Option.some.injEq]
      omega
    rw [parseStrFrom.eq_def]
    simp [hv, hsur]
  · rcases h6 with h | h
    · rw [char_eq_of_toNat c _ h, parseStrFrom.eq_def]
      simp [hexDigit, hex4, hexVal]
    · rw [char_eq_of_toNat c _ h, parseStrFrom.eq_def]
      simp [hexDigit, hex4, hexVal]
  · have hq : ¬ c = '\"' := fun h => h1 (Or.inr h)
    have hb : ¬ c = '\\' := fun h => h1 (Or.inl h)
    have hc : ¬ c.toNat < 0x20 := fun h => h5 (Or.inl h)
    rw [parseStrFrom.eq_def]
    simp [hq, hb, hc]

/-- The escapes `\u0008` and `\u000c`, which earlier Go releases write for
backspace and form feed, are read as the same characters. -/
theorem parseStrFrom_long_escape (x : Str) :
    parseStrFrom 0 ("\\u0008".toList ++ x) = pushChar (Char.ofNat 8) (parseStrFrom 0 x) ∧
    parseStrFrom 0 ("\\u000c".toList ++ x) = pushChar (Char.ofNat 12) (parseStrFrom 0 x) := by
  constructor
  · rw [parseStrFrom.eq_def]
    simp [hex4, hexVal]
  · rw [parseStrFrom.eq_def]
    simp [hex4, hexVal]
theorem parseStrBody_escapeString (s rest : Str) :
    parseStrBody (escapeString s ++ '\"' :: rest) = some (s, rest) := by
  unfold parseStrBody
  induction s with
  | nil => rw [parseStrFrom.eq_def]; simp [escapeString]
  | cons c cs ih =>
    simp only [escapeString, List.append_assoc]
    rw [parseStrFrom_escapeChar, ih]
    rfl

theorem isNumChar_of_isDigit (c : Char) (h : c.isDigit = true) : isNumChar c = true := by
  simp [isNumChar, h]

theorem all_numChar_of_all_digit (s : Str) (h : s.all Char.isDigit = true) :
    s.all isNumChar = true := by
  rw [List.all_eq_true] at h ⊢
  intro c hc
  exact isNumChar_of_isDigit c (h c hc)

/-- A digit run followed by number characters is made of number characters. -/
theorem all_numChar_of_dropWhile (s : Str)
    (h : (s.dropWhile Char.isDigit).all isNumChar = true) : s.all isNumChar = true := by
  rw [← List.takeWhile_append_dropWhile Char.isDigit s, List.all_append, h, Bool.and_true]
  rw [List.all_eq_true]
  intro c hc
  exact isNumChar_of_isDigit c (List.mem_takeWhile_imp hc)

theorem validExp_numChars (s : Str) (h : validExp s = true) : s.all isNumChar = true := by
  cases s with
  | nil => rfl
  | cons e u =>
    simp only [validExp, Bool.and_eq_true, Bool.or_eq_true, decide_eq_true_eq] at h
    obtain ⟨he, hu⟩ := h
    have hE : isNumChar e = true := by
      rcases he with rfl | rfl <;> decide
    simp only [List.all_cons, hE, Bool.true_and]
    cases u with
    | nil => simp at hu
    | cons sgn v =>
      simp only at hu
      split_ifs at hu with hs
      · simp only [Bool.and_eq_true] at hu
        have hS : isNumChar sgn = true := by
          rcases hs with rfl | rfl <;> decide
        simp only [List.all_cons, hS, Bool.true_and]
        exact all_numChar_of_all_digit v hu.2
      · exact all_numChar_of_all_digit _ hu

theorem validFrac_numChars (s : Str) (h : validFrac s = true) : s.all isNumChar = true := by
  cases s with
  | nil => rfl
  | cons c u =>
    simp only [validFrac] at h
    split_ifs at h with hc
    · subst hc
      cases u with
      | nil => simp at h
      | cons d w =>
        simp only [Bool.and_eq_true] at h
        have hd := isNumChar_of_isDigit d h.1
        have hw := all_numChar_of_dropWhile w (validExp_numChars _ h.2)
        have hdot : isNumChar '.' = true := by decide
        simp only [List.all_cons, hdot, hd, hw, Bool.and_self]
    · exact validExp_numChars _ h

theorem validInt_numChars (s : Str) (h : validInt s = true) :
    s.all isNumChar = true ∧ ∃ c t, s = c :: t ∧ c.isDigit = true := by
  cases s with
  | nil => simp [validInt] at h
  | cons c t =>
    simp only [validInt] at h
    split_ifs at h with h0 hd
    · subst h0
      refine ⟨?_, _, _, rfl, by decide⟩
      have hz : isNumChar '0' = true := by decide
      simp only [List.all_cons, hz, Bool.true_and]
      exact validFrac_numChars _ h
    · refine ⟨?_, _, _, rfl, hd⟩
      simp only [List.all_cons, isNumChar_of_isDigit c hd, Bool.true_and]
      exact all_numChar_of_dropWhile t (validFrac_numChars _ h)

/-- A literal of the number grammar is a non-empty run of number characters
that starts with a minus sign or a digit. -/
theorem validNumber_numChars (s : Str) (h : validNumber s = true) :
    s.all isNumChar = true ∧ ∃ c t, s = c :: t ∧ (c = '-' ∨ c.isDigit = true) := by
  cases s with
  | nil => simp [validNumber] at h
  | cons c t =>
    simp only [validNumber] at h
    split_ifs at h with hm
    · subst hm
      refine ⟨?_, _, _, rfl, Or.inl rfl⟩
      have hz : isNumChar '-' = true := by decide
      simp only [List.all_cons, hz, Bool.true_and]
      exact (validInt_numChars _ h).1
    · obtain ⟨hall, c1, t1, heq, hd⟩ := validInt_numChars _ h
      refine ⟨hall, c1, t1, heq, Or.inr hd⟩


theorem numStart_not_token (c : Char) (h : c = '-' ∨ c.isDigit = true) :
    c ≠ '\"' ∧ c ≠ '[' ∧ c ≠ '{' ∧ c ≠ 't' ∧ c ≠ 'f' ∧ c ≠ 'n' ∧ c ≠ ']' ∧ isWs c = false := by
  rcases h with rfl | hd
  · decide
  · refine ⟨?_, ?_, ?_, ?_, ?_, ?_, ?_, ?_⟩
    · rintro rfl; exact absurd hd (by decide)
    · rintro rfl; exact absurd hd (by decide)
    · rintro rfl; exact absurd hd (by decide)
    · rintro rfl; exact absurd hd (by decide)
    · rintro rfl; exact absurd hd (by decide)
    · rintro rfl; exact absurd hd (by decide)
    · rintro rfl; exact absurd hd (by decide)
    · cases hw : isWs c with
      | false => rfl
      | true =>
        simp only [isWs, Bool.or_eq_true, decide_eq_true_eq] at hw
        rcases hw with ((rfl | rfl) | rfl) | rfl <;> exact absurd hd (by decide)

theorem roundHalfEven_intCast (n : ℤ) : roundHalfEven (n : ℚ) = n := by
  unfold roundHalfEven
  simp

/-- A multiple of the last place is left as it is by the rounding. -/
theorem roundHalfEven_scaled (a : ℚ) (m : ℕ) (e p : ℤ) (ha : a = (m : ℚ) * 2 ^ e) (hp : p ≤ e) :
    (roundHalfEven (a / 2 ^ p) : ℚ) * 2 ^ p = a := by
  obtain ⟨k, hk⟩ : ∃ k : ℕ, e = p + k := ⟨(e - p).toNat, by omega⟩
  have h2 : (2 : ℚ) ^ p ≠ 0 := zpow_ne_zero _ (by norm_num)
  have hq : a / 2 ^ p = ((m * 2 ^ k : ℕ) : ℤ) := by
    rw [div_eq_iff h2, ha, hk, zpow_add₀ (by norm_num : (2 : ℚ) ≠ 0), zpow_natCast]
    push_cast
    ring
  rw [hq, roundHalfEven_intCast, ← hq, div_mul_cancel₀ _ h2]

/-- A number that a float64 holds exactly is its own nearest float64. -/
theorem float64Round_of_isFloat64 (x : ℚ) (h : IsFloat64 x) : float64Round x = x := by
  obtain ⟨m, e, hm, he1, he2, hx⟩ := h
  unfold float64Round
  by_cases h0 : x = 0
  · simp [h0]
  · rw [if_neg h0]
    have hpos : 0 < |x| := abs_pos.mpr h0
    have hlog : Int.log 2 |x| < e + 53 := by
      rw [← Int.lt_zpow_iff_log_lt (by norm_num) hpos, hx]
      have h2 : (0 : ℚ) < 2 ^ e := zpow_pos (by norm_num) e
      have h3 : ((2 : ℕ) : ℚ) ^ (e + 53) = 2 ^ (53 : ℕ) * 2 ^ e := by
        rw [zpow_add₀ (by norm_num : ((2 : ℕ) : ℚ) ≠ 0)]
        push_cast
        rw [mul_comm]
        norm_cast
      rw [h3]
      have : (m : ℚ) < 2 ^ (53 : ℕ) := by exact_mod_cast hm
      exact mul_lt_mul_of_pos_right this h2
    have hp : max (Int.log 2 |x| - 52) (-1074) ≤ e := max_le (by omega) he1
    rw [mul_assoc, roundHalfEven_scaled |x| m e _ hx hp]
    by_cases hneg : x < 0
    · rw [if_pos hneg, abs_of_neg hneg]; ring
    · rw [if_neg hneg, abs_of_nonneg (not_lt.mp hneg)]; ring

/-- Every integer of magnitude up to `2 ^ 53` is a number a float64 holds exactly. -/
theorem isFloat64_of_nat (n : ℕ) (h : n ≤ 2 ^ 53) : IsFloat64 (n : ℚ) ∧ IsFloat64 (-(n : ℚ)) := by
  have hn : |(n : ℚ)| = n := abs_of_nonneg (Nat.cast_nonneg n)
  have key : ∃ (m : ℕ) (e : ℤ), m < 2 ^ 53 ∧ -1074 ≤ e ∧ e ≤ 971 ∧ (n : ℚ) = (m : ℚ) * 2 ^ e := by
    by_cases hlt : n < 2 ^ 53
    · exact ⟨n, 0, hlt, by norm_num, by norm_num, by simp⟩
    · have : n = 2 ^ 53 := by omega
      refine ⟨2 ^ 52, 1, by norm_num, by norm_num, by norm_num, ?_⟩
      rw [this]
      norm_num
  obtain ⟨m, e, h1, h2, h3, h4⟩ := key
  exact ⟨⟨m, e, h1, h2, h3, by rw [hn]; exact h4⟩, ⟨m, e, h1, h2, h3, by rw [abs_neg, hn]; exact h4⟩⟩

/-- The number `2 ^ 53 + 1` lies half way between two float64 and goes to the even one. -/
theorem float64Round_example : float64Round 9007199254740993 = 9007199254740992 := by
  have hlog : Int.log 2 |(9007199254740993 : ℚ)| = 53 := by
    apply le_antisymm
    · have : Int.log 2 |(9007199254740993 : ℚ)| < 54 := by
        rw [← Int.lt_zpow_iff_log_lt (by norm_num) (by norm_num)]
        norm_num
      omega
    · rw [← Int.zpow_le_iff_le_log (by norm_num) (by norm_num)]
      norm_num
  unfold float64Round
  rw [hlog]
  have hf : ⌊(9007199254740993 : ℚ) / 2⌋ = 4503599627370496 := by
    rw [Int.floor_eq_iff]
    constructor <;> norm_num
  norm_num [roundHalfEven, hf]

/-- The number one tenth is no float64; the nearest one is `3602879701896397 * 2 ^ -55`. -/
theorem float64Round_tenth :
    float64Round (1 / 10) = 3602879701896397 / 36028797018963968 := by
  have habs : |(1 / 10 : ℚ)| = 1 / 10 := abs_of_pos (by norm_num)
  have hlog : Int.log 2 |(1 / 10 : ℚ)| = -4 := by
    rw [habs]
    apply le_antisymm
    · have : Int.log 2 (1 / 10 : ℚ) < -3 := by
        rw [← Int.lt_zpow_iff_log_lt (by norm_num) (by norm_num)]
        norm_num
      omega
    · rw [← Int.zpow_le_iff_le_log (by norm_num) (by norm_num)]
      norm_num
  unfold float64Round
  rw [hlog]
  have hm : max ((-4 : ℤ) - 52) (-1074) = -56 := by norm_num
  rw [hm, habs]
  have hq : (1 / 10 : ℚ) / 2 ^ (-56 : ℤ) = 36028797018963968 / 5 := by
    norm_num
  have hf : ⌊(36028797018963968 / 5 : ℚ)⌋ = 7205759403792793 := by
    rw [Int.floor_eq_iff]
    constructor <;> norm_num
  rw [hq]
  norm_num [roundHalfEven, hf]

theorem floatOverflow_iff (lit : Str) :
    floatOverflow lit = true ↔ (floatLimit : ℚ) ≤ |literalValue lit| := by
  unfold floatOverflow literalValue
  have key : ∀ (m : ℕ) (e : ℤ),
      ((if 0 ≤ e then decide (floatLimit ≤ m * 10 ^ e.toNat)
        else decide (floatLimit * 10 ^ (-e).toNat ≤ m)) = true) ↔
      (floatLimit : ℚ) ≤ (m : ℚ) * 10 ^ e := by
    intro m e
    by_cases he : 0 ≤ e
    · obtain ⟨k, rfl⟩ : ∃ k : ℕ, e = k := ⟨e.toNat, by omega⟩
      simp only [he, if_true, decide_eq_true_eq, Int.toNat_ofNat, zpow_natCast]
      exact_mod_cast Iff.rfl
    · obtain ⟨k, rfl⟩ : ∃ k : ℕ, e = -k := ⟨(-e).toNat, by omega⟩
      simp only [he, if_false, decide_eq_true_eq, neg_neg, Int.toNat_ofNat, zpow_neg, zpow_natCast]
      rw [← div_eq_mul_inv, le_div_iff₀ (by positivity)]
      exact_mod_cast Iff.rfl
  have hnn : ∀ (m : ℕ) (e : ℤ), (0 : ℚ) ≤ (m : ℚ) * 10 ^ e := fun m e => by positivity
  by_cases hs : lit.head? = some '-'
  · simp only [hs, if_true]
    rw [abs_neg, abs_of_nonneg (hnn _ _)]
    exact key _ _
  · simp only [hs, if_false]
    rw [abs_of_nonneg (hnn _ _)]
    exact key _ _

set_option exponentiation.threshold 2000 in
theorem floatLimit_eq : floatLimit = 2 ^ 1024 - 2 ^ 970 := by
  norm_num [floatLimit]

/-- The largest float64, `(2 ^ 53 - 1) * 2 ^ 971`, is below the limit. -/
theorem float64_below_limit : ((2 : ℚ) ^ (53 : ℕ) - 1) * 2 ^ (971 : ℕ) < (floatLimit : ℚ) := by
  have hc : (floatLimit : ℚ) = 2 ^ (1024 : ℕ) - 2 ^ (970 : ℕ) := by
    rw [floatLimit_eq, Nat.cast_sub (Nat.pow_le_pow_right (by norm_num) (by norm_num))]
    simp only [Nat.cast_pow, Nat.cast_ofNat]
  have ha : (0 : ℚ) < 2 ^ (970 : ℕ) := by positivity
  have e1 : (2 : ℚ) ^ (971 : ℕ) = 2 * 2 ^ (970 : ℕ) := by
    rw [show (971 : ℕ) = 970 + 1 from rfl, pow_succ]; ring
  have e2 : (2 : ℚ) ^ (1024 : ℕ) = 2 ^ (54 : ℕ) * 2 ^ (970 : ℕ) := by
    rw [← pow_add]
  rw [hc, e1, e2]
  generalize (2 : ℚ) ^ (970 : ℕ) = a at ha
  norm_num
  linarith

/-- A number that a float64 holds exactly is within the float64 range. -/
theorem not_floatOverflow_of_isFloat64 (lit : Str) (h : IsFloat64 (literalValue lit)) :
    floatOverflow lit = false := by
  obtain ⟨m, e, hm, he1, he2, hx⟩ := h
  cases hf : floatOverflow lit with
  | false => rfl
  | true =>
    exfalso
    rw [floatOverflow_iff, hx] at hf
    have h1 : (m : ℚ) ≤ 2 ^ (53 : ℕ) - 1 := by
      have : m + 1 ≤ 2 ^ 53 := hm
      have h : ((m + 1 : ℕ) : ℚ) ≤ ((2 ^ 53 : ℕ) : ℚ) := by exact_mod_cast this
      push_cast at h
      linarith
    have h2 : (2 : ℚ) ^ e ≤ 2 ^ (971 : ℕ) := by
      rw [← zpow_natCast]
      exact zpow_le_zpow_right₀ (by norm_num) (by exact_mod_cast he2)
    have h3 : (m : ℚ) * 2 ^ e ≤ (2 ^ (53 : ℕ) - 1) * 2 ^ (971 : ℕ) :=
      mul_le_mul h1 h2 (by positivity) (by norm_num)
    exact absurd (lt_of_le_of_lt (le_trans hf h3) float64_below_limit) (lt_irrefl _)
theorem isJson_num (lit : Str) (h : (Value.num lit).isJson = true) :
    validNumber lit = true := h

/-- The text of a value starts with a character that is neither whitespace nor
a closing bracket. -/
theorem marshal_head (v : Value) (hv : v.isJson = true) :
    ∃ c t, marshal v = c :: t ∧ isWs c = false ∧ c ≠ ']' := by
  cases v with
  | null => exact ⟨'n', _, rfl, by decide, by decide⟩
  | bool b => cases b
              · exact ⟨'f', _, rfl, by decide, by decide⟩
              · exact ⟨'t', _, rfl, by decide, by decide⟩
  | num lit =>
    obtain ⟨_, c, t, heq, hc⟩ := validNumber_numChars lit (isJson_num lit hv)
    obtain ⟨_, _, _, _, _, _, h7, h8⟩ := numStart_not_token c hc
    exact ⟨c, t, heq, h8, h7⟩
  | str s => exact ⟨'\"', _, rfl, by decide, by decide⟩

/-- Reading back one marshalled value in front of a comma or a closing bracket. -/
theorem parseValue_marshal (k : Nat) (v : Value) (hv : v.isJson = true) (d : Char) (r : Str)
    (hd : d = ',' ∨ d = ']') :
    parseValue (k + 1) (marshal v ++ d :: r) = some (v.decoded, d :: r) := by
  cases v with
  | null =>
    have : marshal Value.null = ['n', 'u', 'l', 'l'] := rfl
    rw [this]
    simp [parseValue, expect, Value.decoded, Value.toJ, List.isPrefixOf]
  | bool b =>
    cases b
    · have : marshal (Value.bool false) = ['f', 'a', 'l', 's', 'e'] := rfl
      rw [this]
      simp [parseValue, expect, Value.decoded, Value.toJ, List.isPrefixOf]
    · have : marshal (Value.bool true) = ['t', 'r', 'u', 'e'] := rfl
      rw [this]
      simp [parseValue, expect, Value.decoded, Value.toJ, List.isPrefixOf]
  | num lit =>
    obtain ⟨hall, c, t, heq, hc⟩ := validNumber_numChars lit (isJson_num lit hv)
    obtain ⟨h1, h2, h3, h4, h5, h6, _, _⟩ := numStart_not_token c hc
    have hdn : isNumChar d = false := by
      rcases hd with rfl | rfl <;> decide
    have htake : (lit ++ d :: r).takeWhile isNumChar = lit := by
      rw [List.takeWhile_append_of_pos (List.all_eq_true.mp hall)]
      simp [List.takeWhile_cons, hdn]
    have hdrop : (lit ++ d :: r).dropWhile isNumChar = d :: r := by
      rw [List.dropWhile_append_of_pos (List.all_eq_true.mp hall)]
      simp [List.dropWhile_cons, hdn]
    have hm : marshal (Value.num lit) = lit := rfl
    have hv2 : validNumber lit = true := isJson_num lit hv
    rw [hm]
    have hcons : lit ++ d :: r = c :: (t ++ d :: r) := by rw [heq]; rfl
    have hstart : c = '-' ∨ c.isDigit = true := hc
    rw [hcons] at htake hdrop ⊢
    simp only [parseValue, h1, h2, h3, h4, h5, h6, if_false, hstart, if_true, htake, hdrop, hv2,
      Value.decoded]
    cases floatOverflow lit <;> simp
  | str s =>
    have hm : marshal (Value.str s) = '\"' :: (escapeString s ++ ['\"']) := rfl
    rw [hm]
    have : '\"' :: (escapeString s ++ ['\"']) ++ d :: r
        = '\"' :: (escapeString s ++ '\"' :: (d :: r)) := by simp
    rw [this, parseValue]
    simp only [if_true, parseStrBody_escapeString, Option.map_some', Value.decoded, Value.toJ]


theorem skipWs_cons (c : Char) (t : Str) (h : isWs c = false) : skipWs (c :: t) = c :: t := by
  simp [skipWs, List.dropWhile_cons, h]

theorem join_cons_cons (sep a b : Str) (l : List Str) :
    join sep (a :: b :: l) = a ++ sep ++ join sep (b :: l) := rfl

/-- The joined texts of a non-empty row start like the text of its first value. -/
theorem join_marshal_head (v : Value) (vs : Row) (hv : v.isJson = true) (x : Str) :
    ∃ c t, join [','] ((v :: vs).map marshal) ++ x = c :: t ∧ isWs c = false ∧ c ≠ ']' := by
  obtain ⟨c, t, hm, hw, hb⟩ := marshal_head v hv
  cases vs with
  | nil => exact ⟨c, t ++ x, by simp [join, hm], hw, hb⟩
  | cons w ws =>
    refine ⟨c, t ++ [','] ++ join [','] ((w :: ws).map marshal) ++ x, ?_, hw, hb⟩
    simp only [List.map_cons, join_cons_cons, hm]
    simp

theorem join_length_ge (sep : Str) :
    ∀ (l : List Str), (∀ a ∈ l, a ≠ []) → l.length ≤ (join sep l).length := by
  intro l
  induction l with
  | nil => intro _; simp [join]
  | cons a l ih =>
    intro h
    have ha : 0 < a.length := List.length_pos.mpr (h a (List.mem_cons_self _ _))
    cases l with
    | nil => simp only [join, List.length_singleton]; omega
    | cons b l =>
      have := ih (fun x hx => h x (List.mem_cons_of_mem _ hx))
      simp only [join_cons_cons, List.length_append, List.length_cons] at this ⊢
      omega

/-- Reading back the elements of a marshalled row up to the closing bracket. -/
theorem parseElemsWith_row (k : Nat) :
    ∀ (vs : Row) (v : Value) (n : Nat) (rest : Str), (∀ x ∈ v :: vs, x.isJson = true) →
      vs.length + 1 ≤ n →
      parseElemsWith (parseValue (k + 1)) n (join [','] ((v :: vs).map marshal) ++ ']' :: rest)
        = some ((v :: vs).map Value.decoded, rest) := by
  intro vs
  induction vs with
  | nil =>
    intro v n rest hj hn
    obtain ⟨m, rfl⟩ : ∃ m, n = m + 1 := ⟨n - 1, by omega⟩
    have hv := hj v (List.mem_cons_self _ _)
    have hws : isWs ']' = false := by decide
    simp only [List.map_cons, List.map_nil, join, parseElemsWith,
      parseValue_marshal k v hv ']' rest (Or.inr rfl), skipWs_cons _ _ hws]
    simp
  | cons w ws ih =>
    intro v n rest hj hn
    obtain ⟨m, rfl⟩ : ∃ m, n = m + 1 := ⟨n - 1, by simp at hn; omega⟩
    have hv := hj v (List.mem_cons_self _ _)
    have hjw : ∀ x ∈ w :: ws, x.isJson = true := fun x hx => hj x (List.mem_cons_of_mem _ hx)
    have hws : isWs ',' = false := by decide
    obtain ⟨c, t, hct, hcw, _⟩ := join_marshal_head w ws (hjw w (List.mem_cons_self _ _))
      (']' :: rest)
    have htxt : join [','] ((v :: w :: ws).map marshal) ++ ']' :: rest
        = marshal v ++ ',' :: (join [','] ((w :: ws).map marshal) ++ ']' :: rest) := by
      simp only [List.map_cons, join_cons_cons]
      simp
    have hih := ih w m rest hjw (by simp at hn ⊢; omega)
    rw [htxt]
    simp only [parseElemsWith, parseValue_marshal k v hv ',' _ (Or.inl rfl), skipWs_cons _ _ hws,
      if_true]
    rw [hct, skipWs_cons _ _ hcw, ← hct, hih]
    simp

/-- One step of the decoder at an opening bracket followed by an element. -/
theorem parseValue_array (k : Nat) (d : Char) (t1 : Str) (hw : isWs d = false) (hb : d ≠ ']') :
    parseValue (k + 1) ('[' :: d :: t1)
      = (parseElemsWith (parseValue k) (d :: t1).length (d :: t1)).map
          fun p => (JVal.arr p.1, p.2) := by
  have hq : ¬ ('[' = '\"') := by decide
  rw [parseValue.eq_def]
  simp only [hq, if_false, if_true, skipWs_cons _ _ hw, hb]

theorem rowLine_eq (row : Row) : rowLine row = join [','] (row.map marshal) := by
  unfold rowLine marshalRow
  have h : ('[' :: (join [','] (row.map marshal) ++ [']'])).length - 1
      = ('[' :: join [','] (row.map marshal)).length := by simp
  rw [h]
  have h2 : '[' :: (join [','] (row.map marshal) ++ [']'])
      = ('[' :: join [','] (row.map marshal)) ++ [']'] := by simp
  rw [h2, List.take_left]
  rfl

theorem marshal_ne_nil (v : Value) (hv : v.isJson = true) : marshal v ≠ [] := by
  obtain ⟨c, t, h, _⟩ := marshal_head v hv
  rw [h]; exact List.cons_ne_nil _ _

/-- The line of a non-empty row of scalars, wrapped in brackets again, decodes
to the row, each number as the nearest float64. -/
theorem unmarshalRow_rowLine (row : Row) (hne : row ≠ []) (hj : ∀ v ∈ row, v.isJson = true) :
    unmarshalRow ('[' :: (rowLine row ++ [']'])) = row.map Value.decoded := by
  cases row with
  | nil => exact absurd rfl hne
  | cons v vs =>
    rw [rowLine_eq]
    obtain ⟨c, t, hct, hcw, hcb⟩ := join_marshal_head v vs (hj v (List.mem_cons_self _ _)) [']']
    have hlen : (v :: vs).length ≤ (join [','] ((v :: vs).map marshal)).length := by
      have := join_length_ge [','] ((v :: vs).map marshal) (by
        intro a ha
        obtain ⟨x, hx, rfl⟩ := List.mem_map.mp ha
        exact marshal_ne_nil x (hj x hx))
      simpa using this
    have hws : isWs '[' = false := by decide
    have hel := parseElemsWith_row ((join [','] ((v :: vs).map marshal)).length + 1) vs v
      (join [','] ((v :: vs).map marshal) ++ [']']).length [] hj
      (by simp only [List.length_append, List.length_singleton, List.length_cons] at hlen ⊢; omega)
    unfold unmarshalRow unmarshal
    have hdl : ('[' :: (join [','] ((v :: vs).map marshal) ++ [']'])).length + 1
        = ((join [','] ((v :: vs).map marshal)).length + 1) + 1 + 1 := by simp
    rw [skipWs_cons _ _ hws, hdl, hct, parseValue_array _ c t hcw hcb, ← hct, hel]
    simp [skipWs]

/-- Splitting the joined column names gives the names back. -/
theorem splitChar_join (sep : Char) :
    ∀ (l : List Str), l ≠ [] → (∀ a ∈ l, sep ∉ a) → splitChar sep (join [sep] l) = l := by
  intro l
  induction l with
  | nil => intro h; exact absurd rfl h
  | cons a l ih =>
    intro _ h
    have ha := h a (List.mem_cons_self _ _)
    cases l with
    | nil => simp only [join]; exact splitChar_not_mem sep a ha
    | cons b l =>
      have := ih (List.cons_ne_nil _ _) (fun x hx => h x (List.mem_cons_of_mem _ hx))
      rw [join_cons_cons, List.append_assoc]
      simp only [List.singleton_append]
      rw [splitChar_append sep _ a ha, this]

theorem escapeChar_no_newline (c : Char) : '\n' ∉ escapeChar c := by
  unfold escapeChar
  have h1 := (hexDigit_not_special (c.toNat / 16)).1
  have h2 := (hexDigit_not_special (c.toNat % 16)).1
  split_ifs with a1 a2 a3 a4 a7 a8 a5 a6
  · rcases a1 with rfl | rfl <;> decide
  · decide
  · decide
  · decide
  · decide
  · decide
  · simp only [List.mem_cons, List.mem_singleton, List.not_mem_nil, or_false, not_or]
    exact ⟨by decide, by decide, by decide, by decide, fun e => h1 e.symm, fun e => h2 e.symm⟩
  · simp only [List.mem_cons, List.mem_singleton, List.not_mem_nil, or_false, not_or]
    exact ⟨by decide, by decide, by decide, by decide, by decide, fun e => h2 e.symm⟩
  · simp only [List.mem_singleton]
    exact fun e => a2 e.symm

theorem escapeString_no_newline (s : Str) : '\n' ∉ escapeString s := by
  induction s with
  | nil => simp [escapeString]
  | cons c cs ih =>
    simp only [escapeString, List.mem_append, not_or]
    exact ⟨escapeChar_no_newline c, ih⟩

theorem marshal_no_newline (v : Value) (hv : v.isJson = true) : '\n' ∉ marshal v := by
  cases v with
  | null => decide
  | bool b => cases b <;> decide
  | num lit =>
    intro hmem
    have hall := (validNumber_numChars lit (isJson_num lit hv)).1
    have := List.all_eq_true.mp hall _ hmem
    exact absurd this (by decide)
  | str s =>
    simp only [marshal, encodeString, List.mem_cons, List.mem_append, List.mem_singleton,
      List.not_mem_nil, or_false, not_or]
    exact ⟨by decide, escapeString_no_newline s, by decide⟩

theorem join_no_newline :
    ∀ (l : List Str), (∀ a ∈ l, '\n' ∉ a) → '\n' ∉ join [','] l := by
  intro l
  induction l with
  | nil => intro _; simp [join]
  | cons a l ih =>
    intro h
    cases l with
    | nil => simpa [join] using h a (List.mem_cons_self _ _)
    | cons b l =>
      rw [join_cons_cons]
      simp only [List.mem_append, List.mem_singleton, not_or]
      exact ⟨⟨h a (List.mem_cons_self _ _), by decide⟩,
        ih (fun x hx => h x (List.mem_cons_of_mem _ hx))⟩

theorem rowLine_no_newline (row : Row) (hj : ∀ v ∈ row, v.isJson = true) :
    '\n' ∉ rowLine row := by
  rw [rowLine_eq]
  apply join_no_newline
  intro a ha
  obtain ⟨v, hv, rfl⟩ := List.mem_map.mp ha
  exact marshal_no_newline v (hj v hv)

/-- The lines of the text the row loop writes behind a buffer that ends a line. -/
theorem splitChar_csvRows :
    ∀ (rows : List Row) (buf : Str), (∀ row ∈ rows, ∀ v ∈ row, v.isJson = true) →
      ∃ tail, csvRows rows buf = buf ++ tail ∧
        splitChar '\n' tail = rows.map rowLine ++ [[]] := by
  intro rows
  induction rows with
  | nil => intro buf _; exact ⟨[], by simp [csvRows], rfl⟩
  | cons row rest ih =>
    intro buf hj
    obtain ⟨tail, h1, h2⟩ := ih (buf ++ rowLine row ++ ['\n'])
      (fun r hr => hj r (List.mem_cons_of_mem _ hr))
    refine ⟨rowLine row ++ '\n' :: tail, ?_, ?_⟩
    · simp only [csvRows, h1]; simp
    · rw [splitChar_append '\n' tail _ (rowLine_no_newline row (hj row (List.mem_cons_self _ _))),
        h2]
      rfl

theorem importRows_lines (columns : List Str) (hcols : columns ≠ []) :
    ∀ (rows : List Row) (acc : List (List JVal)),
      (∀ row ∈ rows, row.length = columns.length ∧ ∀ v ∈ row, v.isJson = true) →
      importRows columns (rows.map rowLine ++ [[]]) acc
        = acc ++ rows.map fun row => row.map Value.decoded := by
  intro rows
  induction rows with
  | nil =>
    intro acc _
    have he : unmarshalRow ['[', ']'] = [] := by rfl
    have hl : ¬ (0 = columns.length) := by
      intro h; exact hcols (List.length_eq_zero.mp h.symm)
    simp only [List.map_nil, List.nil_append, importRows, he, List.length_nil, hl, if_false,
      List.append_nil]
  | cons row rest ih =>
    intro acc h
    obtain ⟨hlen, hj⟩ := h row (List.mem_cons_self _ _)
    have hne : row ≠ [] := by
      intro e; rw [e] at hlen
      exact hcols (List.length_eq_zero.mp hlen.symm)
    have hu := unmarshalRow_rowLine row hne hj
    simp only [List.map_cons, List.cons_append, importRows, hu, List.length_map, hlen, if_true,
      List.append_eq]
    rw [ih _ (fun r hr => h r (List.mem_cons_of_mem _ hr))]
    simp

/-- What the CSV member parser of `DbImport` makes of the text `DbExport`
writes for the member: the same columns and, in the same order, the rows with
each number brought to the nearest float64. -/
theorem parseCsv_csvText (columns : List Str) (rows : List Row) (hcols : columns ≠ [])
    (hnames : ∀ name ∈ columns, ',' ∉ name ∧ '\n' ∉ name)
    (hrows : ∀ row ∈ rows, row.length = columns.length ∧ ∀ v ∈ row, v.isJson = true) :
    parseCsv (csvText columns rows) = (columns, rows.map fun row => row.map Value.decoded) := by
  obtain ⟨tail, h1, h2⟩ := splitChar_csvRows rows (join [','] columns ++ ['\n'])
    (fun row hr => (hrows row hr).2)
  have hhead : '\n' ∉ join [','] columns := join_no_newline columns (fun a ha => (hnames a ha).2)
  have hlines : splitChar '\n' (csvText columns rows)
      = join [','] columns :: (rows.map rowLine ++ [[]]) := by
    unfold csvText
    rw [h1, List.append_assoc]
    simp only [List.singleton_append]
    rw [splitChar_append '\n' tail _ hhead, h2]
  have hsplit := splitChar_join ',' columns hcols (fun a ha => (hnames a ha).1)
  unfold parseCsv
  rw [hlines]
  simp only [List.headD_cons, List.drop_succ_cons, List.drop_zero, hsplit]
  rw [importRows_lines columns hcols rows [] hrows]
  simp

/-- A value whose number a float64 holds exactly is decoded to the JSON value it stands for. -/
theorem decoded_of_inFloat64 (v : Value) (h : v.InFloat64) : v.decoded = v.toJ := by
  cases v with
  | null => rfl
  | bool b => rfl
  | str s => rfl
  | num lit =>
    have h1 : IsFloat64 (literalValue lit) := h
    simp only [Value.decoded, Value.toJ, not_floatOverflow_of_isFloat64 lit h1,
      float64Round_of_isFloat64 _ h1, Bool.false_eq_true, if_false]

/-- C2, as amended. CSV round trip: for every table with at least one column,
whose column names hold no comma and no newline and whose rows each hold as
many JSON scalars as there are columns, the CSV member parser of `DbImport`,
run on the text `DbExport` writes for the member, yields the same columns and
the same rows in the same order, every number brought to the nearest float64
(nil beyond the float64 range); and when every number of the table is one a
float64 holds exactly, the values are equal as JSON values. -/
theorem csv_round_trip (columns : List Str) (rows : List Row) (hcols : columns ≠ [])
    (hnames : ∀ name ∈ columns, ',' ∉ name ∧ '\n' ∉ name)
    (hrows : ∀ row ∈ rows, row.length = columns.length ∧ ∀ v ∈ row, v.isJson = true) :
    parseCsv (csvText columns rows) = (columns, rows.map fun row => row.map Value.decoded) ∧
    ((∀ row ∈ rows, ∀ v ∈ row, v.InFloat64) →
      parseCsv (csvText columns rows) = (columns, rows.map fun row => row.map Value.toJ)) := by
  have hdec := parseCsv_csvText columns rows hcols hnames hrows
  refine ⟨hdec, fun hfloat => ?_⟩
  rw [hdec]
  congr 1
  apply List.map_congr_left
  intro row hr
  apply List.map_congr_left
  intro v hv
  exact decoded_of_inFloat64 v (hfloat row hr v hv)

theorem literalValue_one : literalValue "1".toList = 1 := by
  have h : magnitudeOf "1".toList = (1, 0) := by decide
  have hs : ("1".toList).head? ≠ some '-' := by decide
  unfold literalValue
  rw [if_neg hs, h]
  norm_num

theorem csv_round_trip_witness :
    csvText ["id".toList, "email".toList] [[.num "1".toList, .str "a@x.com".toList]]
      = "id,email\n1,\"a@x.com\"\n".toList ∧
    parseCsv (csvText ["id".toList, "email".toList] [[.num "1".toList, .str "a@x.com".toList]])
      = (["id".toList, "email".toList],
          [[.num "1".toList, .str "a@x.com".toList]].map fun row => row.map Value.toJ) ∧
    [[Value.num "1".toList, .str "a@x.com".toList]].map (fun row => row.map Value.toJ)
      = [[JVal.num 1, .str "a@x.com".toList]] :=
  ⟨by rfl,
    (csv_round_trip ["id".toList, "email".toList]
      [[.num "1".toList, .str "a@x.com".toList]] (by decide) (by decide)
      (fun row hr => by
        simp only [List.mem_singleton] at hr
        subst hr
        exact ⟨rfl, by decide⟩)).2
      (fun row hr v hv => by
        simp only [List.mem_singleton] at hr
        subst hr
        simp only [List.mem_cons, List.mem_singleton, List.not_mem_nil, or_false] at hv
        rcases hv with rfl | rfl
        · show IsFloat64 (literalValue "1".toList)
          rw [literalValue_one]
          exact_mod_cast (isFloat64_of_nat 1 (by norm_num)).1
        · trivial),
    by simp only [List.map_cons, List.map_nil, Value.toJ, literalValue_one]⟩

theorem literalValue_example : literalValue "9007199254740993".toList = 9007199254740993 := by
  have h : magnitudeOf "9007199254740993".toList = (9007199254740993, 0) := by decide
  have hs : ("9007199254740993".toList).head? ≠ some '-' := by decide
  unfold literalValue
  rw [if_neg hs, h]
  norm_num

/-- C2, the counterexample. The table with the one column `n` and the one row
holding the number 9007199254740993, which is `2 ^ 53 + 1`: the member text is
`n`, then `9007199254740993`; the parser returns the row with the number
9007199254740992, the nearest float64, which is not the number written. -/
theorem csv_round_trip_loses_integer :
    (Value.num "9007199254740993".toList).isJson = true ∧
    csvText ["n".toList] [[.num "9007199254740993".toList]] = "n\n9007199254740993\n".toList ∧
    parseCsv (csvText ["n".toList] [[.num "9007199254740993".toList]])
      = (["n".toList], [[JVal.num 9007199254740992]]) ∧
    (Value.num "9007199254740993".toList).toJ = JVal.num 9007199254740993 ∧
    parseCsv (csvText ["n".toList] [[.num "9007199254740993".toList]])
      ≠ (["n".toList], [[Value.num "9007199254740993".toList]].map fun row => row.map Value.toJ) := by
  have hdec : (Value.num "9007199254740993".toList).decoded = JVal.num 9007199254740992 := by
    have ho : floatOverflow "9007199254740993".toList = false := by decide
    simp only [Value.decoded, ho, Bool.false_eq_true, if_false, literalValue_example,
      float64Round_example]
  have hp := parseCsv_csvText ["n".toList] [[.num "9007199254740993".toList]] (by decide)
    (by decide) (fun row hr => by
      simp only [List.mem_singleton] at hr
      subst hr
      refine ⟨rfl, fun v hv => ?_⟩
      simp only [List.mem_singleton] at hv
      subst hv
      rfl)
  simp only [List.map_cons, List.map_nil, hdec] at hp
  refine ⟨rfl, by rfl, hp, by simp only [Value.toJ, literalValue_example], ?_⟩
  rw [hp]
  simp only [List.map_cons, List.map_nil, Value.toJ, literalValue_example]
  intro h
  simp only [Prod.mk.injEq, List.cons.injEq, JVal.num.injEq, and_true, true_and] at h
  norm_num at h

end PgBackup
